import Mathlib

/-!
Verification of the Sentinel pathfind and engram core against its
specification.  Rust sources are shallowly embedded: `f64` values are
modelled as exact rationals (`ℚ`), vectors as lists, hash maps as
association lists, and the external BLAKE3 / UUIDv5 hash functions as
universally quantified function parameters.  Loops that are not
structurally recursive carry an explicit fuel argument; each such loop
comes with a measure and a proof that the chosen fuel never runs out.
-/

namespace Sentinel

/-! ### A model of `serde_json::Value` -/

/-- JSON values as stored in node and edge property bags. -/
inductive Json where
  | null
  | bool (b : Bool)
  | num (q : ℚ)
  | str (s : String)
  | arr (items : List Json)
  | obj (fields : List (String × Json))

/-- Field lookup on a JSON object; `none` on non-objects.  Object keys are
unique in `serde_json`, so first-match lookup is exact. -/
def Json.get (j : Json) (key : String) : Option Json :=
  match j with
  | .obj fields => fields.lookup key
  | _ => none

/-- Mirrors `Value::as_str`. -/
def Json.as_str (j : Json) : Option String :=
  match j with
  | .str s => some s
  | _ => none

/-- Mirrors `Value::as_bool`. -/
def Json.as_bool (j : Json) : Option Bool :=
  match j with
  | .bool b => some b
  | _ => none

/-- Mirrors `Value::as_f64`; numbers are exact rationals in this model. -/
def Json.as_f64 (j : Json) : Option ℚ :=
  match j with
  | .num q => some q
  | _ => none

/-- Mirrors `Value::as_u64`: defined exactly on non-negative integers. -/
def Json.as_u64 (j : Json) : Option ℕ :=
  match j with
  | .num q => if q.den = 1 && 0 ≤ q.num then some q.num.toNat else none
  | _ => none

/-- Mirrors `Value::as_array`. -/
def Json.as_array (j : Json) : Option (List Json) :=
  match j with
  | .arr items => some items
  | _ => none

/-- ASCII lowercasing, modelling `str::to_lowercase` on the ASCII strings
this codebase compares. -/
def str_lower (s : String) : String :=
  ⟨s.data.map Char.toLower⟩

/-- Substring test, modelling `str::contains`. -/
def str_contains (s pattern : String) : Bool :=
  decide (pattern.data <:+: s.data)

/-! ### The in-memory graph (`sentinel-pathfind/src/graph.rs`) -/

/-- Compact node metadata stored in the in-memory graph. -/
structure GraphNode where
  index : ℕ
  id : String
  label : String
  criticality : ℚ
  is_internet_facing : Bool
  is_crown_jewel : Bool
  properties : Json

/-- Compact edge metadata for the adjacency list. -/
structure GraphEdge where
  id : String
  edge_type : String
  exploitability : ℚ
  target_index : ℕ

/-- The in-memory graph for pathfinding algorithms. -/
structure InMemoryGraph where
  nodes : List GraphNode
  adjacency : List (List GraphEdge)
  node_index : List (String × ℕ)

/-- Out-of-range placeholder node; Rust panics on out-of-range indexing,
so theorems carry in-range hypotheses wherever this default could show. -/
def default_graph_node : GraphNode :=
  ⟨0, "", "", 0, false, false, Json.null⟩

/-- Out-of-range placeholder edge. -/
def default_graph_edge : GraphEdge :=
  ⟨"", "", 0, 0⟩

/-- Fetched node record (`sentinel-graph/src/queries.rs`). -/
structure NodeRecord where
  id : String
  label : String
  tenant_id : String
  properties : Json

/-- Fetched edge record (`sentinel-graph/src/queries.rs`). -/
structure EdgeRecord where
  id : String
  edge_type : String
  source_id : String
  target_id : String
  properties : Json

/-- Map a criticality string to a numeric weight. -/
def criticality_weight (criticality : String) : ℚ :=
  match str_lower criticality with
  | "critical" => 1
  | "high" => 8/10
  | "medium" => 1/2
  | "low" => 1/5
  | "info" => 1/10
  | _ => 1/10

/-- Extract criticality from node properties. -/
def extract_criticality (properties : Json) : ℚ :=
  ((properties.get "criticality").bind Json.as_str
    |>.map criticality_weight).getD (1/10)

/-- Tag scan shared by the two node classifiers. -/
def has_tag_matching (properties : Json) (patterns : List String) : Bool :=
  match (properties.get "tags").bind Json.as_array with
  | some tags =>
      tags.any fun tag =>
        match tag.as_str with
        | some s => patterns.any fun pat => str_contains (str_lower s) pat
        | none => false
  | none => false

/-- Detect if a node is internet-facing. -/
def detect_internet_facing (label : String) (properties : Json) : Bool :=
  let subnet_flag : Option Bool :=
    if label = "Subnet" then
      match (properties.get "is_public").bind Json.as_bool with
      | some b => some b
      | none =>
          match (properties.get "is_public").bind Json.as_str with
          | some s => some (s == "true")
          | none => none
    else none
  match subnet_flag with
  | some b => b
  | none =>
      has_tag_matching properties ["internet-facing", "internet_facing", "dmz", "public"]

/-- Detect if a node is a crown jewel (high-value target). -/
def detect_crown_jewel (criticality : ℚ) (properties : Json) : Bool :=
  if 1 ≤ criticality then true
  else has_tag_matching properties ["crown-jewel", "crown_jewel", "critical-asset"]

/-- Extract the exploitability score from edge properties.  The source
reads the raw `f64` with default `0.5` and performs no clamping. -/
def extract_exploitability (properties : Json) : ℚ :=
  ((properties.get "exploitability_score").bind Json.as_f64).getD (1/2)

/-- Build an `InMemoryGraph` from fetched subgraph data
(`InMemoryGraph::from_subgraph`).  The node-index hash map is modelled as
an association list built in reverse so that, as for a hash map, the last
insertion for a duplicated id wins. -/
def from_subgraph (nodes : List NodeRecord) (edges : List EdgeRecord) : InMemoryGraph :=
  let node_index := (nodes.enum.map fun p => (p.2.id, p.1)).reverse
  let graph_nodes := nodes.enum.map fun p =>
    let criticality := extract_criticality p.2.properties
    GraphNode.mk p.1 p.2.id p.2.label criticality
      (detect_internet_facing p.2.label p.2.properties)
      (detect_crown_jewel criticality p.2.properties)
      p.2.properties
  let adjacency :=
    edges.foldl (fun adj e =>
      match node_index.lookup e.source_id, node_index.lookup e.target_id with
      | some src_idx, some tgt_idx =>
          adj.set src_idx
            (adj.getD src_idx [] ++
              [GraphEdge.mk e.id e.edge_type (extract_exploitability e.properties) tgt_idx])
      | _, _ => adj)
      (List.replicate graph_nodes.length [])
  ⟨graph_nodes, adjacency, node_index⟩

/-! ### Risk scoring (`sentinel-pathfind/src/scoring.rs`) -/

/-- A raw path through the in-memory graph: node indices, edges as
`(from_node_index, edge_position_in_adjacency_list)` pairs, and the total
weight. -/
structure RawPath where
  node_indices : List ℕ
  edges : List (ℕ × ℕ)
  total_weight : ℚ

/-- Scoring configuration parameters. -/
structure ScoringConfig where
  decay_factor : ℚ
  max_score : ℚ
  default_exploitability : ℚ

/-- Default scoring configuration. -/
def default_scoring_config : ScoringConfig :=
  ⟨9/10, 10, 1/2⟩

/-- Exploitability of one recorded path edge, read back from the
adjacency list. -/
def edge_exploitability (graph : InMemoryGraph) (pr : ℕ × ℕ) : ℚ :=
  ((graph.adjacency.getD pr.1 []).getD pr.2 default_graph_edge).exploitability

/-- Compute the risk score for an attack path (`compute_path_risk_score`). -/
def compute_path_risk_score (graph : InMemoryGraph) (path : RawPath)
    (config : ScoringConfig) : ℚ :=
  if path.node_indices = [] ∨ path.edges = [] then 0
  else
    let target_idx := path.node_indices.getLast?.getD 0
    let target_criticality := (graph.nodes.getD target_idx default_graph_node).criticality
    let exploit_sum : ℚ := (path.edges.map (edge_exploitability graph)).sum
    let hop_count := path.edges.length
    let path_probability := config.decay_factor ^ (hop_count - 1)
    let raw := target_criticality * exploit_sum * path_probability
    let theoretical_max : ℚ := 1 * (hop_count : ℚ)
    if theoretical_max = 0 then 0
    else min (raw / theoretical_max * config.max_score) config.max_score

/-- The scoring formula exactly as the specification states it:
`min(max_score, criticality · Σ exploitability · decay^(k−1) / k · max_score)`. -/
def spec_risk_score (crit exploit_sum : ℚ) (k : ℕ) (decay max_score : ℚ) : ℚ :=
  min max_score (crit * exploit_sum * decay ^ (k - 1) / (k : ℚ) * max_score)

/-- C1. For every graph, every path with at least one edge and a non-empty
node list, and every scoring configuration, `compute_path_risk_score`
returns exactly the specification formula; a path with no edges scores 0;
and the default configuration is `decay = 0.9`, `max_score = 10`. -/
theorem c1_risk_score_matches_spec (graph : InMemoryGraph) (path : RawPath)
    (config : ScoringConfig) (hn : path.node_indices ≠ []) (he : path.edges ≠ []) :
    compute_path_risk_score graph path config =
      spec_risk_score
        ((graph.nodes.getD (path.node_indices.getLast hn) default_graph_node).criticality)
        ((path.edges.map (edge_exploitability graph)).sum)
        path.edges.length config.decay_factor config.max_score
    ∧ (∀ p : RawPath, p.edges = [] → compute_path_risk_score graph p config = 0)
    ∧ default_scoring_config.decay_factor = 9/10
    ∧ default_scoring_config.max_score = 10 := by
  refine ⟨?_, ?_, rfl, rfl⟩
  · have hk : (path.edges.length : ℚ) ≠ 0 := by
      have h : path.edges.length ≠ 0 := fun h => he (List.length_eq_zero.mp h)
      exact_mod_cast h
    have hcond : ¬(path.node_indices = [] ∨ path.edges = []) := by
      simp [hn, he]
    rw [compute_path_risk_score, if_neg hcond]
    rw [List.getLast?_eq_getLast path.node_indices hn]
    simp only [Option.getD_some, spec_risk_score, one_mul, if_neg hk]
    rw [min_comm]
  · intro p hp
    rw [compute_path_risk_score, if_pos (Or.inr hp)]

/-- Concrete instantiation of `c1_risk_score_matches_spec`: a two-node
graph with a single scored edge. -/
def score_witness_graph : InMemoryGraph :=
  ⟨[⟨0, "n0", "Host", 1/5, true, false, Json.null⟩,
    ⟨1, "n1", "Host", 1, false, true, Json.null⟩],
   [[⟨"e01", "CONNECTS_TO", 8/10, 1⟩], []],
   [("n0", 0), ("n1", 1)]⟩

/-- Witness for C1 at a concrete graph, path, and configuration. -/
theorem c1_witness :
    (([0, 1] : List ℕ) ≠ []) ∧ (([(0, 0)] : List (ℕ × ℕ)) ≠ []) ∧
      (compute_path_risk_score score_witness_graph ⟨[0, 1], [(0, 0)], 1/5⟩
          default_scoring_config =
        spec_risk_score
          ((score_witness_graph.nodes.getD
              (([0, 1] : List ℕ).getLast (by decide)) default_graph_node).criticality)
          (([((0 : ℕ), (0 : ℕ))].map (edge_exploitability score_witness_graph)).sum)
          1 default_scoring_config.decay_factor default_scoring_config.max_score
      ∧ (∀ p : RawPath, p.edges = [] →
          compute_path_risk_score score_witness_graph p default_scoring_config = 0)
      ∧ default_scoring_config.decay_factor = 9/10
      ∧ default_scoring_config.max_score = 10) :=
  ⟨by decide, by decide,
    c1_risk_score_matches_spec score_witness_graph ⟨[0, 1], [(0, 0)], 1/5⟩
      default_scoring_config (by decide) (by decide)⟩

/-! ### C2: the exploitability extraction does not clamp -/

/-- Edge properties carrying an out-of-range exploitability. -/
def bad_edge_properties : Json :=
  Json.obj [("exploitability_score", Json.num (-2))]

/-- Subgraph records whose single edge carries exploitability −2 and whose
target node is critical. -/
def bad_graph : InMemoryGraph :=
  from_subgraph
    [⟨"n0", "Host", "t-1", Json.obj []⟩,
     ⟨"n1", "Host", "t-1", Json.obj [("criticality", Json.str "critical")]⟩]
    [⟨"e1", "CONNECTS_TO", "n0", "n1", bad_edge_properties⟩]

/-- C2. The code violates the claim: `extract_exploitability` performs no
clamping, so a stored `exploitability_score` of −2 flows through and
`compute_path_risk_score` returns −20, outside `[0, max_score]`.  This
contradicts both the specification and the source's own doc comments
("Exploitability score (0.0–1.0)", "Returns a score in `[0.0, 10.0]`"). -/
theorem c2_risk_score_escapes_range :
    extract_exploitability bad_edge_properties = -2
    ∧ compute_path_risk_score bad_graph ⟨[0, 1], [(0, 0)], 0⟩ default_scoring_config = -20
    ∧ ¬(0 ≤ compute_path_risk_score bad_graph ⟨[0, 1], [(0, 0)], 0⟩ default_scoring_config) := by
  have hcrit : ∀ h : ([0, 1] : List ℕ) ≠ [],
      ((bad_graph.nodes.get? (([0, 1] : List ℕ).getLast h)).getD default_graph_node).criticality
        = 1 := fun _ => rfl
  have hexp : edge_exploitability bad_graph (0, 0) = -2 := rfl
  have hscore : compute_path_risk_score bad_graph ⟨[0, 1], [(0, 0)], 0⟩
      default_scoring_config = -20 := by
    rw [compute_path_risk_score]
    simp only [List.map_cons, List.map_nil, List.sum_cons, List.sum_nil, hexp,
      List.getLast?, Option.getD_some, List.length_cons, List.length_nil, List.getD]
    rw [if_neg (by decide : ¬(([0, 1] : List ℕ) = [] ∨ ([(0, 0)] : List (ℕ × ℕ)) = []))]
    rw [if_neg (by norm_num : ¬(1 * ((0 + 1 : ℕ) : ℚ) = 0))]
    rw [hcrit]
    norm_num [default_scoring_config]
  exact ⟨rfl, hscore, by rw [hscore]; norm_num⟩

/-! ### All-paths DFS enumeration (`sentinel-pathfind/src/algorithms.rs`) -/

/-- Mirrors `f64::clamp(0.0, 1.0)`. -/
def clamp01 (q : ℚ) : ℚ := max 0 (min 1 q)

/-- Edge weight `1 − clamp(exploitability, 0, 1)`. -/
def edge_weight (e : GraphEdge) : ℚ := 1 - clamp01 e.exploitability

/-- Internal DFS state for all-paths enumeration.  The Rust `HashSet`
of visited indices is modelled as a list queried by membership. -/
structure DfsState where
  node : ℕ
  path_nodes : List ℕ
  path_edges : List (ℕ × ℕ)
  weight : ℚ
  visited : List ℕ

/-- Initial DFS state for a source node. -/
def init_dfs_state (source : ℕ) : DfsState :=
  ⟨source, [source], [], 0, [source]⟩

/-- Successor states pushed for the unvisited neighbors of the current
node, in adjacency order. -/
def dfs_children (graph : InMemoryGraph) (state : DfsState) : List DfsState :=
  (graph.adjacency.getD state.node []).enum.filterMap fun pe =>
    if pe.2.target_index ∈ state.visited then none
    else some
      { node := pe.2.target_index
        path_nodes := state.path_nodes ++ [pe.2.target_index]
        path_edges := state.path_edges ++ [(state.node, pe.1)]
        weight := state.weight + edge_weight pe.2
        visited := pe.2.target_index :: state.visited }

/-- The work-stack loop of `enumerate_all_paths` for one source.  The list
head is the top of the Rust `Vec` stack; children are pushed in adjacency
order.  The fuel argument only guards termination:
`dfs_loop_fuel_stable` shows any fuel at least the stack measure gives the
same result. -/
def dfs_loop (graph : InMemoryGraph) (target_set : List ℕ) (max_depth max_paths : ℕ) :
    ℕ → List DfsState → List RawPath → List RawPath
  | 0, _, acc => acc
  | _ + 1, [], acc => acc
  | fuel + 1, state :: rest, acc =>
    if max_paths ≤ acc.length then acc
    else if 1 < state.path_nodes.length ∧ state.node ∈ target_set then
      dfs_loop graph target_set max_depth max_paths fuel rest
        (acc ++ [⟨state.path_nodes, state.path_edges, state.weight⟩])
    else if max_depth < state.path_nodes.length then
      dfs_loop graph target_set max_depth max_paths fuel rest acc
    else
      dfs_loop graph target_set max_depth max_paths fuel
        ((dfs_children graph state).foldl (fun st c => c :: st) rest) acc

/-- Largest out-degree of the graph; bounds how many states one DFS pop
can push. -/
def max_degree (graph : InMemoryGraph) : ℕ :=
  (graph.adjacency.map List.length).foldr max 0

/-- Termination measure of one DFS state. -/
def dfs_state_measure (d max_depth : ℕ) (state : DfsState) : ℕ :=
  (d + 1) ^ (max_depth + 2 - state.path_nodes.length)

/-- Termination measure of a DFS stack. -/
def dfs_stack_measure (d max_depth : ℕ) (stack : List DfsState) : ℕ :=
  (stack.map (dfs_state_measure d max_depth)).sum

/-- All-paths enumeration from source nodes to target nodes using DFS
(`enumerate_all_paths`): depth-first exploration per source with cycle
avoidance, a depth bound, a global result cap, and a final stable sort by
total weight ascending. -/
def enumerate_all_paths (graph : InMemoryGraph) (sources targets : List ℕ)
    (max_depth max_paths : ℕ) : List RawPath :=
  let all_paths := sources.foldl (fun acc s =>
    if max_paths ≤ acc.length then acc
    else
      dfs_loop graph targets max_depth max_paths
        (dfs_stack_measure (max_degree graph) max_depth [init_dfs_state s] + 1)
        [init_dfs_state s] acc) []
  (List.insertionSort (fun a b => a.total_weight ≤ b.total_weight) all_paths).take max_paths

/-- Any member of any list is bounded by the `foldr max` of the list. -/
theorem le_foldr_max (l : List ℕ) (x : ℕ) (hx : x ∈ l) : x ≤ l.foldr max 0 := by
  induction l with
  | nil => cases hx
  | cons a l ih =>
      rw [List.mem_cons] at hx
      rcases hx with rfl | hx
      · exact le_max_left _ _
      · exact le_trans (ih hx) (le_max_right _ _)

/-- Out-degree of every node is at most `max_degree`. -/
theorem degree_le_max_degree (graph : InMemoryGraph) (i : ℕ) :
    (graph.adjacency.getD i []).length ≤ max_degree graph := by
  by_cases hi : i < graph.adjacency.length
  · have hmem : (graph.adjacency.getD i []).length ∈ graph.adjacency.map List.length := by
      rw [List.getD_eq_getElem _ _ hi]
      exact List.mem_map_of_mem _ (graph.adjacency.getElem_mem hi)
    exact le_foldr_max _ _ hmem
  · rw [List.getD_eq_default _ _ (le_of_not_lt hi)]
    exact Nat.zero_le _

/-- Pushing a list of states onto a head-is-top stack reverses it onto
the front. -/
theorem foldl_push_eq_append (children : List DfsState) (rest : List DfsState) :
    children.foldl (fun st c => c :: st) rest = children.reverse ++ rest := by
  induction children generalizing rest with
  | nil => rfl
  | cons c children ih => simp [ih, List.append_assoc]

/-- The measure of the stack left after pushing the children of a state
within the depth bound is strictly below the measure of the original
stack. -/
theorem dfs_measure_decreases (graph : InMemoryGraph) (max_depth : ℕ) (state : DfsState)
    (rest : List DfsState) (hdepth : state.path_nodes.length ≤ max_depth) :
    dfs_stack_measure (max_degree graph) max_depth
        ((dfs_children graph state).foldl (fun st c => c :: st) rest) <
      dfs_stack_measure (max_degree graph) max_depth (state :: rest) := by
  set d := max_degree graph with hd
  rw [foldl_push_eq_append]
  have hchild_val : ∀ c ∈ dfs_children graph state,
      dfs_state_measure d max_depth c = (d + 1) ^ (max_depth + 1 - state.path_nodes.length) := by
    intro c hc
    obtain ⟨pe, _, hpe⟩ := List.mem_filterMap.mp hc
    by_cases hv : pe.2.target_index ∈ state.visited
    · simp [hv] at hpe
    · simp only [hv, if_neg, ite_false] at hpe
      cases hpe
      simp only [dfs_state_measure, List.length_append, List.length_cons, List.length_nil]
      congr 1
      omega
  have hcount : (dfs_children graph state).length ≤ d := by
    calc (dfs_children graph state).length
        ≤ (graph.adjacency.getD state.node []).enum.length := List.length_filterMap_le _ _
      _ = (graph.adjacency.getD state.node []).length := List.enum_length
      _ ≤ d := degree_le_max_degree graph state.node
  have hsum : ((dfs_children graph state).reverse.map (dfs_state_measure d max_depth)).sum
      ≤ d * (d + 1) ^ (max_depth + 1 - state.path_nodes.length) := by
    have : ∀ c ∈ (dfs_children graph state).reverse,
        dfs_state_measure d max_depth c = (d + 1) ^ (max_depth + 1 - state.path_nodes.length) :=
      fun c hc => hchild_val c (List.mem_reverse.mp hc)
    calc ((dfs_children graph state).reverse.map (dfs_state_measure d max_depth)).sum
        ≤ ((dfs_children graph state).reverse.map
            (fun _ => (d + 1) ^ (max_depth + 1 - state.path_nodes.length))).sum := by
          apply List.sum_le_sum
          intro c hc
          rw [this c hc]
      _ = (dfs_children graph state).length *
            (d + 1) ^ (max_depth + 1 - state.path_nodes.length) := by
          rw [List.map_const', List.sum_replicate, List.length_reverse, smul_eq_mul]
      _ ≤ d * (d + 1) ^ (max_depth + 1 - state.path_nodes.length) :=
          Nat.mul_le_mul_right _ hcount
  have hstate : dfs_state_measure d max_depth state
      = (d + 1) * (d + 1) ^ (max_depth + 1 - state.path_nodes.length) := by
    rw [dfs_state_measure, ← pow_succ']
    congr 1
    omega
  have hpow : 0 < (d + 1) ^ (max_depth + 1 - state.path_nodes.length) :=
    Nat.pos_pow_of_pos _ (Nat.succ_pos d)
  simp only [dfs_stack_measure, List.map_append, List.sum_append, List.map_cons, List.sum_cons]
  have : ((dfs_children graph state).reverse.map (dfs_state_measure d max_depth)).sum
      < dfs_state_measure d max_depth state := by
    calc ((dfs_children graph state).reverse.map (dfs_state_measure d max_depth)).sum
        ≤ d * (d + 1) ^ (max_depth + 1 - state.path_nodes.length) := hsum
      _ < (d + 1) * (d + 1) ^ (max_depth + 1 - state.path_nodes.length) :=
          (Nat.mul_lt_mul_right hpow).mpr (Nat.lt_succ_self d)
      _ = dfs_state_measure d max_depth state := hstate.symm
  omega

/-- A nonempty stack has a positive measure. -/
theorem dfs_measure_pos (d max_depth : ℕ) (state : DfsState) (rest : List DfsState) :
    0 < dfs_stack_measure d max_depth (state :: rest) := by
  simp only [dfs_stack_measure, List.map_cons, List.sum_cons]
  have : 0 < dfs_state_measure d max_depth state := Nat.pos_pow_of_pos _ (Nat.succ_pos d)
  omega

/-- The DFS loop result does not depend on the fuel once the fuel reaches
the stack measure: the chosen fuel never runs out. -/
theorem dfs_loop_fuel_stable (graph : InMemoryGraph) (target_set : List ℕ)
    (max_depth max_paths : ℕ) :
    ∀ fuel₁ fuel₂ stack acc,
      dfs_stack_measure (max_degree graph) max_depth stack ≤ fuel₁ →
      dfs_stack_measure (max_degree graph) max_depth stack ≤ fuel₂ →
      dfs_loop graph target_set max_depth max_paths fuel₁ stack acc =
        dfs_loop graph target_set max_depth max_paths fuel₂ stack acc := by
  intro fuel₁
  induction fuel₁ using Nat.strong_induction_on with
  | _ fuel₁ ih =>
    intro fuel₂ stack acc h₁ h₂
    match stack with
    | [] =>
        cases fuel₁ <;> cases fuel₂ <;> rfl
    | state :: rest =>
        have hpos := dfs_measure_pos (max_degree graph) max_depth state rest
        match fuel₁, fuel₂ with
        | 0, _ => omega
        | _ + 1, 0 => omega
        | f₁ + 1, f₂ + 1 =>
          have hrest : dfs_stack_measure (max_degree graph) max_depth rest + 1 ≤
              dfs_stack_measure (max_degree graph) max_depth (state :: rest) := by
            simp only [dfs_stack_measure, List.map_cons, List.sum_cons]
            have : 0 < dfs_state_measure (max_degree graph) max_depth state :=
              Nat.pos_pow_of_pos _ (Nat.succ_pos _)
            omega
          rw [dfs_loop, dfs_loop]
          by_cases hmp : max_paths ≤ acc.length
          · simp only [hmp, if_true]
          · simp only [hmp, if_false]
            by_cases htgt : 1 < state.path_nodes.length ∧ state.node ∈ target_set
            · simp only [htgt, if_true]
              exact ih f₁ (Nat.lt_succ_self _) f₂ rest _ (by omega) (by omega)
            · simp only [htgt, if_false]
              by_cases hdep : max_depth < state.path_nodes.length
              · simp only [hdep, if_true]
                exact ih f₁ (Nat.lt_succ_self _) f₂ rest _ (by omega) (by omega)
              · simp only [hdep, if_false]
                have hdec := dfs_measure_decreases graph max_depth state rest (by omega)
                exact ih f₁ (Nat.lt_succ_self _) f₂ _ _ (by omega) (by omega)

/-- Invariant of every state on the DFS work stack: the current path is a
non-empty duplicate-free node list covered by the visited set, and its
length stays within one of the depth bound. -/
def dfs_inv (max_depth : ℕ) (state : DfsState) : Prop :=
  state.path_nodes.Nodup ∧ (∀ x ∈ state.path_nodes, x ∈ state.visited) ∧
    state.path_nodes ≠ [] ∧ state.path_nodes.length ≤ max_depth + 1

/-- Children of a state within the depth bound satisfy the stack
invariant. -/
theorem dfs_children_inv (graph : InMemoryGraph) (max_depth : ℕ) (state : DfsState)
    (hinv : dfs_inv max_depth state) (hdepth : state.path_nodes.length ≤ max_depth) :
    ∀ c ∈ dfs_children graph state, dfs_inv max_depth c := by
  obtain ⟨hnodup, hcover, hne, _⟩ := hinv
  intro c hc
  obtain ⟨pe, _, hpe⟩ := List.mem_filterMap.mp hc
  by_cases hv : pe.2.target_index ∈ state.visited
  · simp [hv] at hpe
  · simp only [hv, if_neg, ite_false] at hpe
    cases hpe
    refine ⟨?_, ?_, by simp, by simp; omega⟩
    · rw [List.nodup_append]
      refine ⟨hnodup, List.nodup_singleton _, ?_⟩
      intro x hx hx'
      rw [List.mem_singleton] at hx'
      subst hx'
      exact hv (hcover _ hx)
    · intro x hx
      rw [List.mem_append, List.mem_singleton] at hx
      rcases hx with hx | rfl
      · exact List.mem_cons_of_mem _ (hcover _ hx)
      · exact List.mem_cons_self _ _

/-- Safety property C5/C6 share: every path the DFS loop ever appends has
duplicate-free node indices and at most `max_depth + 1` of them. -/
theorem dfs_loop_safety (graph : InMemoryGraph) (target_set : List ℕ)
    (max_depth max_paths : ℕ) :
    ∀ fuel stack acc,
      (∀ s ∈ stack, dfs_inv max_depth s) →
      (∀ p ∈ acc, p.node_indices.Nodup ∧ p.node_indices.length ≤ max_depth + 1) →
      ∀ p ∈ dfs_loop graph target_set max_depth max_paths fuel stack acc,
        p.node_indices.Nodup ∧ p.node_indices.length ≤ max_depth + 1 := by
  intro fuel
  induction fuel with
  | zero => intro stack acc _ hacc; exact hacc
  | succ fuel ih =>
    intro stack acc hstack hacc
    match stack with
    | [] => exact hacc
    | state :: rest =>
      rw [dfs_loop]
      by_cases hmp : max_paths ≤ acc.length
      · simp only [hmp, if_true]; exact hacc
      · simp only [hmp, if_false]
        have hstate := hstack state (List.mem_cons_self _ _)
        have hrest : ∀ s ∈ rest, dfs_inv max_depth s :=
          fun s hs => hstack s (List.mem_cons_of_mem _ hs)
        by_cases htgt : 1 < state.path_nodes.length ∧ state.node ∈ target_set
        · simp only [htgt, if_true]
          refine ih rest _ hrest ?_
          intro p hp
          rw [List.mem_append, List.mem_singleton] at hp
          rcases hp with hp | rfl
          · exact hacc p hp
          · exact ⟨hstate.1, hstate.2.2.2⟩
        · simp only [htgt, if_false]
          by_cases hdep : max_depth < state.path_nodes.length
          · simp only [hdep, if_true]
            exact ih rest acc hrest hacc
          · simp only [hdep, if_false]
            refine ih _ acc ?_ hacc
            intro s hs
            rw [foldl_push_eq_append, List.mem_append, List.mem_reverse] at hs
            rcases hs with hs | hs
            · exact dfs_children_inv graph max_depth state hstate (by omega) s hs
            · exact hrest s hs

/-- Safety transported through the per-source fold of
`enumerate_all_paths`. -/
theorem enumerate_fold_safety (graph : InMemoryGraph) (targets : List ℕ)
    (max_depth max_paths : ℕ) (sources : List ℕ) :
    ∀ acc, (∀ p ∈ acc, p.node_indices.Nodup ∧ p.node_indices.length ≤ max_depth + 1) →
      ∀ p ∈ sources.foldl (fun acc s =>
          if max_paths ≤ acc.length then acc
          else
            dfs_loop graph targets max_depth max_paths
              (dfs_stack_measure (max_degree graph) max_depth [init_dfs_state s] + 1)
              [init_dfs_state s] acc) acc,
        p.node_indices.Nodup ∧ p.node_indices.length ≤ max_depth + 1 := by
  induction sources with
  | nil => intro acc hacc; exact hacc
  | cons s sources ih =>
    intro acc hacc
    rw [List.foldl_cons]
    by_cases hmp : max_paths ≤ acc.length
    · simp only [hmp, if_true]
      exact ih acc hacc
    · simp only [hmp, if_false]
      refine ih _ ?_
      refine dfs_loop_safety graph targets max_depth max_paths _ _ acc ?_ hacc
      intro st hst
      rw [List.mem_singleton] at hst
      subst hst
      exact ⟨List.nodup_singleton _, by simp [init_dfs_state], by simp [init_dfs_state],
        by simp [init_dfs_state]⟩

/-- Membership in the result of `enumerate_all_paths` comes from the
pre-sort accumulated path list. -/
theorem mem_enumerate_all_paths (graph : InMemoryGraph) (sources targets : List ℕ)
    (max_depth max_paths : ℕ) (p : RawPath)
    (hp : p ∈ enumerate_all_paths graph sources targets max_depth max_paths) :
    p ∈ sources.foldl (fun acc s =>
        if max_paths ≤ acc.length then acc
        else
          dfs_loop graph targets max_depth max_paths
            (dfs_stack_measure (max_degree graph) max_depth [init_dfs_state s] + 1)
            [init_dfs_state s] acc) [] := by
  rw [enumerate_all_paths] at hp
  have hp' := List.take_subset _ _ hp
  exact ((List.perm_insertionSort _ _).mem_iff).mp hp'

/-- C5. Every path returned by `enumerate_all_paths` is a simple path: no
node index occurs twice in its node list. -/
theorem c5_enumerated_paths_are_simple (graph : InMemoryGraph) (sources targets : List ℕ)
    (max_depth max_paths : ℕ) :
    ∀ p ∈ enumerate_all_paths graph sources targets max_depth max_paths,
      p.node_indices.Nodup := by
  intro p hp
  exact (enumerate_fold_safety graph targets max_depth max_paths sources [] (by simp) p
    (mem_enumerate_all_paths graph sources targets max_depth max_paths p hp)).1

/-- Concrete two-node graph with one edge `0 → 1` for the C5 witness. -/
def c5_graph : InMemoryGraph :=
  ⟨[⟨0, "m0", "Host", 1, false, false, Json.null⟩,
    ⟨1, "m1", "Host", 1, false, false, Json.null⟩],
   [[⟨"f01", "CONNECTS_TO", 0, 1⟩], []],
   [("m0", 0), ("m1", 1)]⟩

/-- Witness instantiating the C5 theorem on a concrete enumerated path of
`c5_graph`, with the membership hypothesis discharged concretely. -/
theorem c5_witness :
    ∃ p, p ∈ enumerate_all_paths c5_graph [0] [1] 5 10 ∧ p.node_indices.Nodup := by
  have hlen : (enumerate_all_paths c5_graph [0] [1] 5 10).length = 1 := by decide
  cases hl : enumerate_all_paths c5_graph [0] [1] 5 10 with
  | nil =>
      rw [hl] at hlen
      simp at hlen
  | cons p rest =>
      refine ⟨p, List.mem_cons_self _ _, ?_⟩
      exact c5_enumerated_paths_are_simple c5_graph [0] [1] 5 10 p
        (by rw [hl]; exact List.mem_cons_self _ _)

/-! ### C6: the depth bound admits `max_depth + 1` nodes -/

/-- Two-node graph with one edge, exhibiting the off-by-one in the depth
bound. -/
def c6_graph : InMemoryGraph :=
  ⟨[⟨0, "n0", "Host", 1/5, true, false, Json.null⟩,
    ⟨1, "n1", "Host", 1, false, true, Json.null⟩],
   [[⟨"e01", "CONNECTS_TO", 1/2, 1⟩], []],
   [("n0", 0), ("n1", 1)]⟩

/-- C6 counterexample: with `max_depth = 1` the DFS still returns the
two-node path `0 → 1`, so `max_depth` does not bound the node count of a
returned path. -/
theorem c6_counterexample :
    ¬ ∀ p ∈ enumerate_all_paths c6_graph [0] [1] 1 10, p.node_indices.length ≤ 1 := by
  decide

/-- C6 (amended). Every path returned by `enumerate_all_paths` contains
at most `max_depth + 1` nodes: the depth check drops only states that
already exceed `max_depth`, after target emission. -/
theorem c6_depth_bound (graph : InMemoryGraph) (sources targets : List ℕ)
    (max_depth max_paths : ℕ) :
    ∀ p ∈ enumerate_all_paths graph sources targets max_depth max_paths,
      p.node_indices.length ≤ max_depth + 1 := by
  intro p hp
  exact (enumerate_fold_safety graph targets max_depth max_paths sources [] (by simp) p
    (mem_enumerate_all_paths graph sources targets max_depth max_paths p hp)).2

/-- Witness instantiating the amended C6 bound on the concrete path of
`c6_graph` at `max_depth = 1`, with the membership hypothesis discharged
concretely. -/
theorem c6_witness :
    ∃ p, p ∈ enumerate_all_paths c6_graph [0] [1] 1 10 ∧
      p.node_indices.length ≤ 1 + 1 := by
  have hlen : (enumerate_all_paths c6_graph [0] [1] 1 10).length = 1 := by decide
  cases hl : enumerate_all_paths c6_graph [0] [1] 1 10 with
  | nil =>
      rw [hl] at hlen
      simp at hlen
  | cons p rest =>
      refine ⟨p, List.mem_cons_self _ _, ?_⟩
      exact c6_depth_bound c6_graph [0] [1] 1 10 p
        (by rw [hl]; exact List.mem_cons_self _ _)

/-! ### Lateral movement chains (`sentinel-pathfind/src/lateral.rs`) -/

/-- Edge types that represent lateral movement capability. -/
def lateral_edge_types : List String :=
  ["HAS_ACCESS", "TRUSTS", "CAN_REACH", "CONNECTS_TO"]

/-- Check if an edge type is a lateral movement type. -/
def is_lateral_edge (edge_type : String) : Bool :=
  lateral_edge_types.contains edge_type

/-- Lower-cased protocol hint read from target-node properties. -/
def target_protocol (properties : Json) : String :=
  str_lower (((properties.get "protocol").bind Json.as_str).getD "")

/-- Port hint read from target-node properties. -/
def target_port (properties : Json) : ℕ :=
  ((properties.get "port").bind Json.as_u64).getD 0

/-- Detect the lateral movement technique from the edge type and the
target node's properties (`detect_technique`). -/
def detect_technique (edge_type : String) (target_properties : Json) : Option String :=
  let protocol := target_protocol target_properties
  let port := target_port target_properties
  match edge_type with
  | "HAS_ACCESS" =>
      if protocol = "ssh" ∨ port = 22 then some "ssh-pivot"
      else if protocol = "rdp" ∨ port = 3389 then some "rdp-hop"
      else
        let has_admin :=
          match (target_properties.get "permissions").bind Json.as_array with
          | some perms =>
              perms.any fun p =>
                match p.as_str with
                | some s => str_contains (str_lower s) "admin"
                | none => false
          | none => false
        if has_admin then some "pass-the-hash" else some "credential-access"
  | "TRUSTS" => some "trust-exploitation"
  | "CAN_REACH" =>
      if protocol = "ssh" ∨ port = 22 then some "ssh-pivot"
      else if protocol = "rdp" ∨ port = 3389 then some "rdp-hop"
      else some "network-pivot"
  | "CONNECTS_TO" =>
      if protocol = "ssh" ∨ port = 22 then some "ssh-pivot"
      else if protocol = "rdp" ∨ port = 3389 then some "rdp-hop"
      else none
  | _ => none

/-- A detected lateral movement chain. -/
structure LateralChain where
  path : RawPath
  techniques : List String
  chain_length : ℕ

/-- Internal DFS state for lateral movement detection. -/
structure LateralDfsState where
  node : ℕ
  path_nodes : List ℕ
  path_edges : List (ℕ × ℕ)
  techniques : List String
  weight : ℚ
  visited : List ℕ

/-- Initial lateral DFS state for a start node. -/
def init_lateral_state (start_idx : ℕ) : LateralDfsState :=
  ⟨start_idx, [start_idx], [], [], 0, [start_idx]⟩

/-- The recorded edge of a path step, read back from the adjacency list. -/
def edge_at (graph : InMemoryGraph) (pr : ℕ × ℕ) : GraphEdge :=
  (graph.adjacency.getD pr.1 []).getD pr.2 default_graph_edge

/-- The technique string the chain detector attaches for one path step:
the detected technique, or the fallback `"lateral-movement"`. -/
def edge_technique (graph : InMemoryGraph) (pr : ℕ × ℕ) : String :=
  (detect_technique (edge_at graph pr).edge_type
    ((graph.nodes.getD (edge_at graph pr).target_index default_graph_node).properties)).getD
    "lateral-movement"

/-- Successor states over unvisited lateral edges, in adjacency order. -/
def lateral_children (graph : InMemoryGraph) (state : LateralDfsState) :
    List LateralDfsState :=
  (graph.adjacency.getD state.node []).enum.filterMap fun pe =>
    if pe.2.target_index ∈ state.visited then none
    else if ¬ is_lateral_edge pe.2.edge_type then none
    else
      let target_node := graph.nodes.getD pe.2.target_index default_graph_node
      let technique :=
        (detect_technique pe.2.edge_type target_node.properties).getD "lateral-movement"
      some
        { node := pe.2.target_index
          path_nodes := state.path_nodes ++ [pe.2.target_index]
          path_edges := state.path_edges ++ [(state.node, pe.1)]
          techniques := state.techniques ++ [technique]
          weight := state.weight + edge_weight pe.2
          visited := pe.2.target_index :: state.visited }

/-- The work-stack loop of `detect_lateral_chains` for one start node.
A popped state is recorded as a chain when its edge count has reached
`min_length` and is extended further unless it has reached `max_length`. -/
def lateral_loop (graph : InMemoryGraph) (min_length max_length : ℕ) :
    ℕ → List LateralDfsState → List LateralChain → List LateralChain
  | 0, _, chains => chains
  | _ + 1, [], chains => chains
  | fuel + 1, state :: rest, chains =>
    let chains' :=
      if min_length ≤ state.path_edges.length then
        chains ++ [⟨⟨state.path_nodes, state.path_edges, state.weight⟩,
          state.techniques, state.path_edges.length⟩]
      else chains
    if max_length ≤ state.path_edges.length then
      lateral_loop graph min_length max_length fuel rest chains'
    else
      lateral_loop graph min_length max_length fuel
        ((lateral_children graph state).foldl (fun st c => c :: st) rest) chains'

/-- Termination measure of one lateral DFS state. -/
def lateral_state_measure (d max_length : ℕ) (state : LateralDfsState) : ℕ :=
  (d + 1) ^ (max_length + 1 - state.path_edges.length)

/-- Termination measure of a lateral DFS stack. -/
def lateral_stack_measure (d max_length : ℕ) (stack : List LateralDfsState) : ℕ :=
  (stack.map (lateral_state_measure d max_length)).sum

/-- Detect lateral movement chains in the graph
(`detect_lateral_chains`): a DFS over lateral edges from every node,
then a stable sort by chain length descending. -/
def detect_lateral_chains (graph : InMemoryGraph) (min_length max_length : ℕ) :
    List LateralChain :=
  let chains := (List.range graph.nodes.length).foldl (fun chains start_idx =>
    lateral_loop graph min_length max_length
      (lateral_stack_measure (max_degree graph) max_length [init_lateral_state start_idx] + 1)
      [init_lateral_state start_idx] chains) []
  List.insertionSort (fun a b => b.chain_length ≤ a.chain_length) chains

/-- Pushing lateral states onto a head-is-top stack reverses them onto
the front. -/
theorem lateral_foldl_push_eq_append (children rest : List LateralDfsState) :
    children.foldl (fun st c => c :: st) rest = children.reverse ++ rest := by
  induction children generalizing rest with
  | nil => rfl
  | cons c children ih => simp [ih, List.append_assoc]

/-- The stack measure strictly decreases when the children of a state
below the length bound are pushed. -/
theorem lateral_measure_decreases (graph : InMemoryGraph) (max_length : ℕ)
    (state : LateralDfsState) (rest : List LateralDfsState)
    (hlen : state.path_edges.length < max_length) :
    lateral_stack_measure (max_degree graph) max_length
        ((lateral_children graph state).foldl (fun st c => c :: st) rest) <
      lateral_stack_measure (max_degree graph) max_length (state :: rest) := by
  set d := max_degree graph with hd
  rw [lateral_foldl_push_eq_append]
  have hchild_val : ∀ c ∈ lateral_children graph state,
      lateral_state_measure d max_length c
        = (d + 1) ^ (max_length - state.path_edges.length) := by
    intro c hc
    obtain ⟨pe, _, hpe⟩ := List.mem_filterMap.mp hc
    by_cases hv : pe.2.target_index ∈ state.visited
    · simp [hv] at hpe
    · by_cases hl : is_lateral_edge pe.2.edge_type
      · simp only [hv, hl, if_neg, ite_false, not_true_eq_false, Option.some.injEq] at hpe
        cases hpe
        simp only [lateral_state_measure, List.length_append, List.length_cons, List.length_nil]
        congr 1
        omega
      · simp [hv, hl] at hpe
  have hcount : (lateral_children graph state).length ≤ d := by
    calc (lateral_children graph state).length
        ≤ (graph.adjacency.getD state.node []).enum.length := List.length_filterMap_le _ _
      _ = (graph.adjacency.getD state.node []).length := List.enum_length
      _ ≤ d := degree_le_max_degree graph state.node
  have hsum : ((lateral_children graph state).reverse.map (lateral_state_measure d max_length)).sum
      ≤ d * (d + 1) ^ (max_length - state.path_edges.length) := by
    calc ((lateral_children graph state).reverse.map (lateral_state_measure d max_length)).sum
        ≤ ((lateral_children graph state).reverse.map
            (fun _ => (d + 1) ^ (max_length - state.path_edges.length))).sum := by
          apply List.sum_le_sum
          intro c hc
          rw [hchild_val c (List.mem_reverse.mp hc)]
      _ = (lateral_children graph state).length *
            (d + 1) ^ (max_length - state.path_edges.length) := by
          rw [List.map_const', List.sum_replicate, List.length_reverse, smul_eq_mul]
      _ ≤ d * (d + 1) ^ (max_length - state.path_edges.length) :=
          Nat.mul_le_mul_right _ hcount
  have hstate : lateral_state_measure d max_length state
      = (d + 1) * (d + 1) ^ (max_length - state.path_edges.length) := by
    rw [lateral_state_measure, ← pow_succ']
    congr 1
    omega
  have hpow : 0 < (d + 1) ^ (max_length - state.path_edges.length) :=
    Nat.pos_pow_of_pos _ (Nat.succ_pos d)
  simp only [lateral_stack_measure, List.map_append, List.sum_append, List.map_cons,
    List.sum_cons]
  have : ((lateral_children graph state).reverse.map (lateral_state_measure d max_length)).sum
      < lateral_state_measure d max_length state := by
    calc ((lateral_children graph state).reverse.map (lateral_state_measure d max_length)).sum
        ≤ d * (d + 1) ^ (max_length - state.path_edges.length) := hsum
      _ < (d + 1) * (d + 1) ^ (max_length - state.path_edges.length) :=
          (Nat.mul_lt_mul_right hpow).mpr (Nat.lt_succ_self d)
      _ = lateral_state_measure d max_length state := hstate.symm
  omega

/-- A nonempty lateral stack has a positive measure. -/
theorem lateral_measure_pos (d max_length : ℕ) (state : LateralDfsState)
    (rest : List LateralDfsState) :
    0 < lateral_stack_measure d max_length (state :: rest) := by
  simp only [lateral_stack_measure, List.map_cons, List.sum_cons]
  have : 0 < lateral_state_measure d max_length state := Nat.pos_pow_of_pos _ (Nat.succ_pos d)
  omega

/-- The lateral loop result does not depend on the fuel once the fuel
reaches the stack measure. -/
theorem lateral_loop_fuel_stable (graph : InMemoryGraph) (min_length max_length : ℕ) :
    ∀ fuel₁ fuel₂ stack chains,
      lateral_stack_measure (max_degree graph) max_length stack ≤ fuel₁ →
      lateral_stack_measure (max_degree graph) max_length stack ≤ fuel₂ →
      lateral_loop graph min_length max_length fuel₁ stack chains =
        lateral_loop graph min_length max_length fuel₂ stack chains := by
  intro fuel₁
  induction fuel₁ using Nat.strong_induction_on with
  | _ fuel₁ ih =>
    intro fuel₂ stack chains h₁ h₂
    match stack with
    | [] => cases fuel₁ <;> cases fuel₂ <;> rfl
    | state :: rest =>
        have hpos := lateral_measure_pos (max_degree graph) max_length state rest
        match fuel₁, fuel₂ with
        | 0, _ => omega
        | _ + 1, 0 => omega
        | f₁ + 1, f₂ + 1 =>
          have hrest : lateral_stack_measure (max_degree graph) max_length rest + 1 ≤
              lateral_stack_measure (max_degree graph) max_length (state :: rest) := by
            simp only [lateral_stack_measure, List.map_cons, List.sum_cons]
            have : 0 < lateral_state_measure (max_degree graph) max_length state :=
              Nat.pos_pow_of_pos _ (Nat.succ_pos _)
            omega
          rw [lateral_loop, lateral_loop]
          by_cases hmax : max_length ≤ state.path_edges.length
          · simp only [hmax, if_true]
            exact ih f₁ (Nat.lt_succ_self _) f₂ rest _ (by omega) (by omega)
          · simp only [hmax, if_false]
            have hdec := lateral_measure_decreases graph max_length state rest (by omega)
            exact ih f₁ (Nat.lt_succ_self _) f₂ _ _ (by omega) (by omega)

/-- Stack invariant for the lateral DFS: the technique vector is exactly
the per-step technique map of the edge list. -/
def lateral_inv (graph : InMemoryGraph) (state : LateralDfsState) : Prop :=
  state.techniques = state.path_edges.map (edge_technique graph)

/-- Lateral children preserve the technique invariant. -/
theorem lateral_children_inv (graph : InMemoryGraph) (state : LateralDfsState)
    (hinv : lateral_inv graph state) :
    ∀ c ∈ lateral_children graph state, lateral_inv graph c := by
  intro c hc
  obtain ⟨pe, hmem, hpe⟩ := List.mem_filterMap.mp hc
  by_cases hv : pe.2.target_index ∈ state.visited
  · simp [hv] at hpe
  · by_cases hl : is_lateral_edge pe.2.edge_type
    · simp only [hv, hl, if_neg, ite_false, not_true_eq_false, Option.some.injEq] at hpe
      cases hpe
      have hedge : edge_at graph (state.node, pe.1) = pe.2 := by
        have h := List.mem_enum_iff_getElem?.mp hmem
        rw [edge_at]
        rw [List.getD_eq_getElem?_getD (graph.adjacency.getD state.node [])]
        rw [h]
        rfl
      simp only [lateral_inv, List.map_append, List.map_cons, List.map_nil]
      rw [hinv]
      congr 1
      simp [edge_technique, hedge]
    · simp [hv, hl] at hpe

/-- Every chain the lateral loop ever appends carries the technique map
of its edge list. -/
theorem lateral_loop_techniques (graph : InMemoryGraph) (min_length max_length : ℕ) :
    ∀ fuel stack chains,
      (∀ s ∈ stack, lateral_inv graph s) →
      (∀ c ∈ chains, c.techniques = c.path.edges.map (edge_technique graph)) →
      ∀ c ∈ lateral_loop graph min_length max_length fuel stack chains,
        c.techniques = c.path.edges.map (edge_technique graph) := by
  intro fuel
  induction fuel with
  | zero => intro stack chains _ hchains; exact hchains
  | succ fuel ih =>
    intro stack chains hstack hchains
    match stack with
    | [] => exact hchains
    | state :: rest =>
      rw [lateral_loop]
      have hstate := hstack state (List.mem_cons_self _ _)
      have hrest : ∀ s ∈ rest, lateral_inv graph s :=
        fun s hs => hstack s (List.mem_cons_of_mem _ hs)
      have hchains' : ∀ c ∈ (if min_length ≤ state.path_edges.length then
          chains ++ [⟨⟨state.path_nodes, state.path_edges, state.weight⟩,
            state.techniques, state.path_edges.length⟩] else chains),
          c.techniques = c.path.edges.map (edge_technique graph) := by
        by_cases hmin : min_length ≤ state.path_edges.length
        · simp only [hmin, if_true]
          intro c hc
          rw [List.mem_append, List.mem_singleton] at hc
          rcases hc with hc | rfl
          · exact hchains c hc
          · exact hstate
        · simp only [hmin, if_false]; exact hchains
      by_cases hmax : max_length ≤ state.path_edges.length
      · simp only [hmax, if_true]
        exact ih rest _ hrest hchains'
      · simp only [hmax, if_false]
        refine ih _ _ ?_ hchains'
        intro s hs
        rw [lateral_foldl_push_eq_append, List.mem_append, List.mem_reverse] at hs
        rcases hs with hs | hs
        · exact lateral_children_inv graph state hstate s hs
        · exact hrest s hs

/-- The technique map carried through the per-start-node fold of
`detect_lateral_chains`. -/
theorem lateral_fold_techniques (graph : InMemoryGraph) (min_length max_length : ℕ)
    (starts : List ℕ) :
    ∀ chains, (∀ c ∈ chains, c.techniques = c.path.edges.map (edge_technique graph)) →
      ∀ c ∈ starts.foldl (fun chains start_idx =>
          lateral_loop graph min_length max_length
            (lateral_stack_measure (max_degree graph) max_length
              [init_lateral_state start_idx] + 1)
            [init_lateral_state start_idx] chains) chains,
        c.techniques = c.path.edges.map (edge_technique graph) := by
  induction starts with
  | nil => intro chains hchains; exact hchains
  | cons s starts ih =>
    intro chains hchains
    rw [List.foldl_cons]
    refine ih _ ?_
    refine lateral_loop_techniques graph min_length max_length _ _ chains ?_ hchains
    intro st hst
    rw [List.mem_singleton] at hst
    subst hst
    rfl

/-- The specification's technique table, verbatim: rows keyed by edge
type and target protocol/port hints, with "(no technique)" as `none`. -/
def spec_technique_table (edge_type : String) (target_properties : Json) : Option String :=
  let protocol := target_protocol target_properties
  let port := target_port target_properties
  match edge_type with
  | "HAS_ACCESS" =>
      if protocol = "ssh" ∨ port = 22 then some "ssh-pivot"
      else if protocol = "rdp" ∨ port = 3389 then some "rdp-hop"
      else if (match (target_properties.get "permissions").bind Json.as_array with
          | some perms =>
              perms.any fun p =>
                match p.as_str with
                | some s => str_contains (str_lower s) "admin"
                | none => false
          | none => false) then some "pass-the-hash"
      else some "credential-access"
  | "TRUSTS" => some "trust-exploitation"
  | "CAN_REACH" =>
      if protocol = "ssh" ∨ port = 22 then some "ssh-pivot"
      else if protocol = "rdp" ∨ port = 3389 then some "rdp-hop"
      else some "network-pivot"
  | "CONNECTS_TO" =>
      if protocol = "ssh" ∨ port = 22 then some "ssh-pivot"
      else if protocol = "rdp" ∨ port = 3389 then some "rdp-hop"
      else none
  | _ => none

/-- Two-node graph with a single plain `CONNECTS_TO` edge and no
protocol/port hints. -/
def c7_graph : InMemoryGraph :=
  ⟨[⟨0, "n0", "Host", 1/2, false, false, Json.null⟩,
    ⟨1, "n1", "Host", 1/2, false, false, Json.null⟩],
   [[⟨"e01", "CONNECTS_TO", 1/2, 1⟩], []],
   [("n0", 0), ("n1", 1)]⟩

/-- C7 counterexample: on a plain `CONNECTS_TO` edge the specification
table yields no technique, yet the emitted chain carries the technique
element `"lateral-movement"`, so the chain's technique elements are not
the table's. -/
theorem c7_counterexample :
    ¬ ∀ chain ∈ detect_lateral_chains c7_graph 1 8,
        chain.techniques.length = chain.path.edges.length ∧
        ∀ pr ∈ chain.path.edges.zip chain.techniques,
          spec_technique_table (edge_at c7_graph pr.1).edge_type
              ((c7_graph.nodes.getD (edge_at c7_graph pr.1).target_index
                default_graph_node).properties)
            = some pr.2 := by
  decide

/-- C7 (amended). Every chain emitted by `detect_lateral_chains` carries
one technique element per edge, each determined from the edge type and
the target node's protocol/port/permissions: the table value where the
table yields a technique, and the fallback string `"lateral-movement"`
where the table yields none (a plain `CONNECTS_TO` edge); a `TRUSTS` edge
always yields `trust-exploitation`. -/
theorem c7_lateral_techniques (graph : InMemoryGraph) (min_length max_length : ℕ) :
    (∀ chain ∈ detect_lateral_chains graph min_length max_length,
      chain.techniques.length = chain.path.edges.length ∧
      chain.techniques = chain.path.edges.map (edge_technique graph)) ∧
    (∀ edge_type props, is_lateral_edge edge_type = true →
      detect_technique edge_type props = spec_technique_table edge_type props) ∧
    (∀ props, detect_technique "TRUSTS" props = some "trust-exploitation") ∧
    (∀ props, ¬(target_protocol props = "ssh" ∨ target_port props = 22) →
      ¬(target_protocol props = "rdp" ∨ target_port props = 3389) →
      detect_technique "CONNECTS_TO" props = none) := by
  refine ⟨?_, ?_, fun props => rfl, ?_⟩
  · intro chain hc
    rw [detect_lateral_chains] at hc
    have hc' := ((List.perm_insertionSort _ _).mem_iff).mp hc
    have htech := lateral_fold_techniques graph min_length max_length
      (List.range graph.nodes.length) [] (by simp) chain hc'
    exact ⟨by rw [htech, List.length_map], htech⟩
  · intro edge_type props hlat
    rw [is_lateral_edge, lateral_edge_types] at hlat
    simp at hlat
    rcases hlat with rfl | rfl | rfl | rfl <;> rfl
  · intro props h1 h2
    simp only [detect_technique, h1, if_false, h2]

/-- Witness for C7's amended theorem: at a concrete graph, and at a
property bag with no protocol or port hints, the `CONNECTS_TO` row
applies and yields no technique. -/
theorem c7_witness :
    (¬(target_protocol (Json.obj []) = "ssh" ∨ target_port (Json.obj []) = 22)) ∧
    (¬(target_protocol (Json.obj []) = "rdp" ∨ target_port (Json.obj []) = 3389)) ∧
    is_lateral_edge "TRUSTS" = true ∧
    detect_technique "CONNECTS_TO" (Json.obj []) = none ∧
    detect_technique "TRUSTS" (Json.obj []) = spec_technique_table "TRUSTS" (Json.obj []) :=
  ⟨by decide, by decide, by decide,
    (c7_lateral_techniques c7_graph 1 8).2.2.2 (Json.obj []) (by decide) (by decide),
    (c7_lateral_techniques c7_graph 1 8).2.1 "TRUSTS" (Json.obj []) (by decide)⟩

/-! ### Engram store (`sentinel-engram/src`)

Timestamps are modelled as integers and the external BLAKE3 hash as a
universally quantified function on the hashable field record, so every
theorem below holds for the real hash in particular. -/

/-- A decision made during agent execution. -/
structure Decision where
  choice : String
  rationale : String
  confidence : ℚ
  timestamp : ℤ

/-- An alternative that was considered but not chosen. -/
structure Alternative where
  option : String
  rejection_reason : String

/-- An action taken by the agent. -/
structure Action where
  action_type : String
  description : String
  details : Json
  success : Bool
  timestamp : ℤ

/-- The complete reasoning chain of an agent session. -/
structure Engram where
  id : String
  tenant_id : String
  agent_id : String
  intent : String
  context : Json
  decisions : List Decision
  alternatives : List Alternative
  actions : List Action
  started_at : ℤ
  completed_at : Option ℤ
  content_hash : Option String

/-- Hashable representation of an engram: every field except
`content_hash`, in the fixed order of `hash.rs`. -/
structure HashableEngram where
  id : String
  tenant_id : String
  agent_id : String
  intent : String
  context : Json
  decisions : List Decision
  alternatives : List Alternative
  actions : List Action
  started_at : ℤ
  completed_at : Option ℤ

/-- Project an engram onto its hashable representation. -/
def hashable_engram (e : Engram) : HashableEngram :=
  ⟨e.id, e.tenant_id, e.agent_id, e.intent, e.context, e.decisions, e.alternatives,
    e.actions, e.started_at, e.completed_at⟩

/-- Compute the content hash of an engram (`compute_engram_hash`):
the external hash applied to every field except `content_hash`. -/
def compute_engram_hash (hash_fn : HashableEngram → String) (e : Engram) : String :=
  hash_fn (hashable_engram e)

/-- Verify that the stored `content_hash` matches a freshly computed hash
(`Engram::verify_integrity`). -/
def verify_integrity (hash_fn : HashableEngram → String) (e : Engram) : Bool :=
  match e.content_hash with
  | some stored => stored == compute_engram_hash hash_fn e
  | none => false

/-- Errors of the engram store. -/
inductive StoreError where
  | not_found (id : String)
  | integrity_violation (id : String)
  | not_finalized

/-- Retrieval by id (`GitEngramStore::get`).  The directory tree with its
parsed `{id}.json` files is modelled as an association list from file
base name to parsed engram; the scan returns the first match. -/
def store_get (hash_fn : HashableEngram → String) (tree : List (String × Engram))
    (id : String) : Except StoreError Engram :=
  match tree.lookup id with
  | none => .error (.not_found id)
  | some engram =>
      if !(verify_integrity hash_fn engram) then .error (.integrity_violation id)
      else .ok engram

/-- Persist a finalized engram (`GitEngramStore::save`): rejected without
a content hash, otherwise written under its id. -/
def store_save (tree : List (String × Engram)) (engram : Engram) :
    Except StoreError (List (String × Engram)) :=
  if engram.content_hash = none then .error .not_finalized
  else .ok ((engram.id, engram) :: tree)

/-- C3. Retrieval recomputes the hash over every field except
`content_hash` and returns `IntegrityViolation` naming the searched id —
never the record — exactly when the recomputed hash differs from the
stored one; when they match the stored engram is returned. -/
theorem c3_get_checks_integrity (hash_fn : HashableEngram → String)
    (tree : List (String × Engram)) (id : String) (e : Engram) (h : String)
    (hfind : tree.lookup id = some e) (hstored : e.content_hash = some h) :
    (store_get hash_fn tree id = .error (.integrity_violation id) ↔
      h ≠ compute_engram_hash hash_fn e)
    ∧ (store_get hash_fn tree id = .ok e ↔ h = compute_engram_hash hash_fn e)
    ∧ (h ≠ compute_engram_hash hash_fn e →
        ∀ e' : Engram, store_get hash_fn tree id ≠ .ok e')
    ∧ compute_engram_hash hash_fn e =
        hash_fn ⟨e.id, e.tenant_id, e.agent_id, e.intent, e.context, e.decisions,
          e.alternatives, e.actions, e.started_at, e.completed_at⟩ := by
  have hv : verify_integrity hash_fn e = (h == compute_engram_hash hash_fn e) := by
    rw [verify_integrity, hstored]
  by_cases heq : h = compute_engram_hash hash_fn e
  · have ht : verify_integrity hash_fn e = true := by rw [hv, heq]; simp
    refine ⟨?_, ?_, ?_, rfl⟩ <;> simp [store_get, hfind, ht, heq]
  · have hf : verify_integrity hash_fn e = false := by rw [hv]; simp [heq]
    refine ⟨?_, ?_, ?_, rfl⟩ <;> simp [store_get, hfind, hf, heq]

/-- Concrete finalized engram for the C3 witness. -/
def c3_engram : Engram :=
  ⟨"id1", "t1", "a1", "i", Json.null, [], [], [], 0, some 1, some "h"⟩

/-- Concrete one-file tree for the C3 witness. -/
def c3_tree : List (String × Engram) := [("id1", c3_engram)]

/-- Witness for C3 at a concrete one-file tree and a concrete hash
function instantiating the generic hash slot. -/
theorem c3_witness :
    c3_tree.lookup "id1" = some c3_engram
    ∧ c3_engram.content_hash = some "h"
    ∧ (store_get (fun _ => "h") c3_tree "id1" = .error (.integrity_violation "id1") ↔
        "h" ≠ compute_engram_hash (fun _ => "h") c3_engram) :=
  ⟨rfl, rfl,
    (c3_get_checks_integrity (fun _ => "h") c3_tree "id1" c3_engram "h" rfl rfl).1⟩

/-- C10. An engram whose `content_hash` was never set fails
`verify_integrity`, and an unfinalized engram present in the tree is
rejected by `get` with an `IntegrityViolation` naming the searched id. -/
theorem c10_unfinalized_engram_rejected (hash_fn : HashableEngram → String)
    (tree : List (String × Engram)) (id : String) (e : Engram)
    (hfind : tree.lookup id = some e) (hnone : e.content_hash = none) :
    (∀ e' : Engram, e'.content_hash = none → verify_integrity hash_fn e' = false)
    ∧ store_get hash_fn tree id = .error (.integrity_violation id)
    ∧ ∀ e' : Engram, store_get hash_fn tree id ≠ .ok e' := by
  have hfalse : ∀ e' : Engram, e'.content_hash = none →
      verify_integrity hash_fn e' = false := by
    intro e' h'
    rw [verify_integrity, h']
  refine ⟨hfalse, ?_, ?_⟩
  · simp [store_get, hfind, hfalse e hnone]
  · simp [store_get, hfind, hfalse e hnone]

/-- Concrete unfinalized engram for the C10 witness. -/
def c10_engram : Engram :=
  ⟨"id2", "t1", "a1", "i", Json.null, [], [], [], 0, none, none⟩

/-- Concrete one-file tree for the C10 witness. -/
def c10_tree : List (String × Engram) := [("id2", c10_engram)]

/-- Witness for C10: a concrete unfinalized engram stored in a one-file
tree. -/
theorem c10_witness :
    c10_tree.lookup "id2" = some c10_engram
    ∧ c10_engram.content_hash = none
    ∧ store_get (fun _ => "h") c10_tree "id2" = .error (.integrity_violation "id2") :=
  ⟨rfl, rfl,
    (c10_unfinalized_engram_rejected (fun _ => "h") c10_tree "id2" c10_engram rfl rfl).2.1⟩

/-! ### Core typed entities (`sentinel-core/src/types.rs`)

Identifiers are modelled as strings (the UUID text form the queries use),
`DateTime<Utc>` timestamps as integers, `u16` ports as naturals. -/

/-- Node criticality ordinal. -/
inductive Criticality where
  | critical | high | medium | low | info

/-- Cloud provider of a host. -/
inductive CloudProvider where
  | aws | azure | gcp | on_prem

/-- Network protocol of a port or service. -/
inductive Protocol where
  | tcp | udp | other (s : String)
deriving DecidableEq

/-- Port state; constructors are renamed from Open/Closed/Filtered since
`open` is reserved in Lean. -/
inductive PortState where
  | port_open | port_closed | port_filtered
deriving DecidableEq

/-- Service state. -/
inductive ServiceState where
  | running | stopped | unknown

/-- Closed set of edge types. -/
inductive EdgeType where
  | connects_to | has_access | member_of | runs_on | trusts | routes_to | exposes
  | depends_on | can_reach | has_cve | has_port | has_certificate
  | belongs_to_subnet | belongs_to_vpc

/-- A discovered host (`sentinel-core::Host`). -/
structure Host where
  id : String
  tenant_id : String
  ip : String
  hostname : Option String
  os : Option String
  os_version : Option String
  mac_address : Option String
  cloud_provider : Option CloudProvider
  cloud_instance_id : Option String
  cloud_region : Option String
  criticality : Criticality
  tags : List String
  first_seen : ℤ
  last_seen : ℤ

/-- A running service on a host (`sentinel-core::Service`). -/
structure Service where
  id : String
  tenant_id : String
  name : String
  version : Option String
  port : ℕ
  protocol : Protocol
  state : ServiceState
  banner : Option String
  first_seen : ℤ
  last_seen : ℤ

/-- An open port on a host (`sentinel-core::Port`). -/
structure Port where
  id : String
  tenant_id : String
  number : ℕ
  protocol : Protocol
  state : PortState
  first_seen : ℤ
  last_seen : ℤ

/-- Properties attached to an edge. -/
structure EdgeProperties where
  protocol : Option Protocol
  port : Option ℕ
  encrypted : Option Bool
  permissions : List String
  exploitability_score : Option ℚ
  extra : Json

/-- Default edge properties (`EdgeProperties::default()`). -/
def default_edge_properties : EdgeProperties :=
  ⟨none, none, none, [], none, Json.null⟩

/-- A typed directed edge (`sentinel-core::Edge`). -/
structure Edge where
  id : String
  tenant_id : String
  source_id : String
  target_id : String
  edge_type : EdgeType
  properties : EdgeProperties
  first_seen : ℤ
  last_seen : ℤ

/-! ### Host upsert (`sentinel-graph/src/mutations.rs`, C8) -/

/-- Mirrors `opt_string`: an optional string parameter defaults to "". -/
def opt_string (opt : Option String) : String := opt.getD ""

/-- The property record a host node carries in the graph store after an
upsert: the eleven SET parameters of `upsert_host` plus the two
timestamps. -/
structure StoredHostProps where
  ip : String
  hostname : String
  os : String
  os_version : String
  mac_address : String
  cloud_provider : String
  cloud_instance_id : String
  cloud_region : String
  criticality : String
  tags : List String
  first_seen : String
  last_seen : String

/-- The SET payload of `upsert_host` for given `first_seen`/`last_seen`
parameter values; `ser_crit` and `ser_prov` stand for the fixed JSON
serializers `ser`/`ser_opt`. -/
def host_props (ser_crit : Criticality → String) (ser_prov : Option CloudProvider → String)
    (host : Host) (first last : String) : StoredHostProps :=
  ⟨host.ip, opt_string host.hostname, opt_string host.os, opt_string host.os_version,
    opt_string host.mac_address, ser_prov host.cloud_provider,
    opt_string host.cloud_instance_id, opt_string host.cloud_region,
    ser_crit host.criticality, host.tags, first, last⟩

/-- Modelled from the spec: the Cypher `MERGE … ON CREATE SET … ON MATCH
SET …` semantics of the external property-graph store, which is not part
of this repository; the match key and both SET clauses are transcribed
from `upsert_host`.  The store state is an association list keyed by
`(tenant_id, id)`, with at most one node per key; on a miss the node is
created with `first_seen = last_seen = now`, on a hit every mutable field
is overwritten, `first_seen` is kept, and `last_seen` is refreshed. -/
def upsert_host (ser_crit : Criticality → String) (ser_prov : Option CloudProvider → String)
    (host : Host) (now : String) :
    List ((String × String) × StoredHostProps) → List ((String × String) × StoredHostProps)
  | [] => [((host.tenant_id, host.id), host_props ser_crit ser_prov host now now)]
  | (k, r) :: rest =>
      if k = (host.tenant_id, host.id) then
        (k, host_props ser_crit ser_prov host r.first_seen now) :: rest
      else
        (k, r) :: upsert_host ser_crit ser_prov host now rest

/-- Erase the `last_seen` timestamp, the one field upsert always
refreshes. -/
def mod_last_seen (r : StoredHostProps) : StoredHostProps :=
  { r with last_seen := "" }

/-- State equality modulo `last_seen`. -/
def state_eq_mod_last_seen (s₁ s₂ : List ((String × String) × StoredHostProps)) : Prop :=
  s₁.map (fun kv => (kv.1, mod_last_seen kv.2)) = s₂.map (fun kv => (kv.1, mod_last_seen kv.2))

/-- C8.  Upserting the same host twice yields the same persistent state
as upserting it once, modulo `last_seen`; on a match every field is
rewritten from the input with `first_seen` preserved and `last_seen`
refreshed, and on a miss both timestamps are set to now. -/
theorem c8_upsert_idempotent (ser_crit : Criticality → String)
    (ser_prov : Option CloudProvider → String) (host : Host) (t₁ t₂ : String) :
    (∀ state, state_eq_mod_last_seen
        (upsert_host ser_crit ser_prov host t₂ (upsert_host ser_crit ser_prov host t₁ state))
        (upsert_host ser_crit ser_prov host t₁ state))
    ∧ (∀ state r, state.lookup (host.tenant_id, host.id) = some r →
        (upsert_host ser_crit ser_prov host t₂ state).lookup (host.tenant_id, host.id)
          = some (host_props ser_crit ser_prov host r.first_seen t₂))
    ∧ (∀ state, state.lookup (host.tenant_id, host.id) = none →
        (upsert_host ser_crit ser_prov host t₂ state).lookup (host.tenant_id, host.id)
          = some (host_props ser_crit ser_prov host t₂ t₂)) := by
  refine ⟨?_, ?_, ?_⟩
  · intro state
    induction state with
    | nil =>
        simp [upsert_host, state_eq_mod_last_seen, mod_last_seen, host_props]
    | cons kv rest ih =>
        obtain ⟨k, r⟩ := kv
        by_cases hk : k = (host.tenant_id, host.id)
        · simp [upsert_host, hk, state_eq_mod_last_seen, mod_last_seen, host_props]
        · simp only [upsert_host, hk, if_false, ite_false]
          simpa [state_eq_mod_last_seen, upsert_host, hk] using ih
  · intro state
    induction state with
    | nil => intro r h; cases h
    | cons kv rest ih =>
        obtain ⟨k, r'⟩ := kv
        intro r h
        by_cases hk : k = (host.tenant_id, host.id)
        · subst hk
          simp only [List.lookup_cons, beq_self_eq_true, Option.some.injEq] at h
          subst h
          simp [upsert_host, List.lookup_cons]
        · have hbeq : ((host.tenant_id, host.id) == k) = false := by
            simp [Ne.symm hk]
          simp only [List.lookup_cons, hbeq] at h
          rw [upsert_host, if_neg hk]
          simp only [List.lookup_cons, hbeq]
          exact ih r h
  · intro state
    induction state with
    | nil =>
        intro _
        simp [upsert_host, List.lookup_cons]
    | cons kv rest ih =>
        obtain ⟨k, r'⟩ := kv
        intro h
        by_cases hk : k = (host.tenant_id, host.id)
        · subst hk
          simp only [List.lookup_cons, beq_self_eq_true] at h
          cases h
        · have hbeq : ((host.tenant_id, host.id) == k) = false := by
            simp [Ne.symm hk]
          simp only [List.lookup_cons, hbeq] at h
          rw [upsert_host, if_neg hk]
          simp only [List.lookup_cons, hbeq]
          exact ih h

/-- Concrete host for the C8 witness. -/
def c8_host : Host :=
  ⟨"h1", "t1", "10.0.0.1", some "web", none, none, none, some CloudProvider.on_prem,
    none, none, Criticality.medium, ["dmz"], 0, 0⟩

/-- Witness for C8 at a concrete host and a concrete prior state. -/
theorem c8_witness :
    ([(("t1", "h1"), host_props (fun _ => "c") (fun _ => "p") c8_host "d0" "d0")].lookup
        ("t1", "h1") = some (host_props (fun _ => "c") (fun _ => "p") c8_host "d0" "d0"))
    ∧ (upsert_host (fun _ => "c") (fun _ => "p") c8_host "d2"
        [(("t1", "h1"), host_props (fun _ => "c") (fun _ => "p") c8_host "d0" "d0")]).lookup
        ("t1", "h1")
      = some (host_props (fun _ => "c") (fun _ => "p") c8_host "d0" "d2") :=
  ⟨rfl,
    (c8_upsert_idempotent (fun _ => "c") (fun _ => "p") c8_host "d1" "d2").2.1
      [(("t1", "h1"), host_props (fun _ => "c") (fun _ => "p") c8_host "d0" "d0")]
      (host_props (fun _ => "c") (fun _ => "p") c8_host "d0" "d0") rfl⟩

/-! ### Nmap scan parsing and conversion (`sentinel-discover`, C9)

The UUIDv5 namespaced hash of the external `uuid` crate is modelled as a
universally quantified function of the namespace bytes and the name
string; every theorem below holds for the real UUIDv5 in particular. -/

/-- Host status element. -/
structure HostStatus where
  state : String
  reason : Option String

/-- Address element. -/
structure Address where
  addr : String
  addr_type : String
  vendor : Option String

/-- Hostname element. -/
structure Hostname where
  name : String
  hostname_type : Option String

/-- Hostnames container element. -/
structure Hostnames where
  hostnames : List Hostname

/-- Port state element of the scan document. -/
structure NmapPortState where
  state : String
  reason : Option String

/-- Service element. -/
structure NmapService where
  name : String
  product : Option String
  version : Option String
  extra_info : Option String

/-- Port element. -/
structure NmapPort where
  protocol : String
  port_id : ℕ
  state : NmapPortState
  service : Option NmapService

/-- Ports container element. -/
structure Ports where
  ports : List NmapPort

/-- OS match element. -/
structure OsMatch where
  name : String
  accuracy : Option String

/-- OS matches container element; the field is renamed from `matches`,
which is reserved in Lean. -/
structure OsMatches where
  os_matches : List OsMatch

/-- A single host from scan results. -/
structure NmapHost where
  status : Option HostStatus
  addresses : List Address
  hostnames : Option Hostnames
  ports : Option Ports
  os : Option OsMatches

/-- Root element of the scan document. -/
structure NmapRun where
  scanner : Option String
  args : Option String
  start_str : Option String
  hosts : List NmapHost

/-- Extract the IPv4 address, if present. -/
def NmapHost.ipv4 (h : NmapHost) : Option String :=
  (h.addresses.find? fun a => a.addr_type == "ipv4").map Address.addr

/-- Extract the MAC address, if present. -/
def NmapHost.mac (h : NmapHost) : Option String :=
  (h.addresses.find? fun a => a.addr_type == "mac").map Address.addr

/-- Extract the first hostname, if present. -/
def NmapHost.hostname (h : NmapHost) : Option String :=
  (h.hostnames.bind fun hn => hn.hostnames.head?).map Hostname.name

/-- Check if the host is up. -/
def NmapHost.is_up (h : NmapHost) : Bool :=
  match h.status with
  | some s => s.state == "up"
  | none => false

/-- Get the best OS match name. -/
def NmapHost.os_name (h : NmapHost) : Option String :=
  (h.os.bind fun os => os.os_matches.head?).map OsMatch.name

/-- Bytes of the fixed DNS namespace UUID used for deterministic ids. -/
def sentinel_ns : List ℕ :=
  [0x6b, 0xa7, 0xb8, 0x10, 0x9d, 0xad, 0x11, 0xd1,
   0x80, 0xb4, 0x00, 0xc0, 0x4f, 0xd4, 0x30, 0xc8]

/-- Parse a scanner protocol string. -/
def parse_protocol (proto : String) : Protocol :=
  match str_lower proto with
  | "tcp" => Protocol.tcp
  | "udp" => Protocol.udp
  | _ => Protocol.other proto

/-- Parse a scanner port state string. -/
def parse_port_state (state : String) : PortState :=
  match str_lower state with
  | "open" => PortState.port_open
  | "closed" => PortState.port_closed
  | _ => PortState.port_filtered

/-- A host with its discovered ports, services, and edges. -/
structure DiscoveredHost where
  host : Host
  ports : List Port
  services : List Service
  edges : List Edge

/-- Convert one scanned host into typed entities with deterministic ids
(`convert_nmap_host`); `u5` is the external UUIDv5 function over the
namespace bytes and a name string. -/
def convert_nmap_host (u5 : List ℕ → String → String) (nmap_host : NmapHost)
    (tenant_id : String) (now : ℤ) : Option DiscoveredHost :=
  match nmap_host.ipv4 with
  | none => none
  | some ip =>
    let host_id := u5 sentinel_ns (tenant_id ++ ":host:" ++ ip)
    let host : Host :=
      ⟨host_id, tenant_id, ip, nmap_host.hostname, nmap_host.os_name, none,
        nmap_host.mac, some CloudProvider.on_prem, none, none, Criticality.medium,
        [], now, now⟩
    let nmap_ports := match nmap_host.ports with
      | some ps => ps.ports
      | none => []
    let ports := nmap_ports.map fun np =>
      Port.mk
        (u5 sentinel_ns
          (tenant_id ++ ":port:" ++ ip ++ ":" ++ toString np.port_id ++ ":" ++ np.protocol))
        tenant_id np.port_id (parse_protocol np.protocol)
        (parse_port_state np.state.state) now now
    let services := nmap_ports.filterMap fun np =>
      np.service.map fun nmap_svc =>
        Service.mk
          (u5 sentinel_ns
            (tenant_id ++ ":service:" ++ ip ++ ":" ++ toString np.port_id ++ ":" ++
              nmap_svc.name))
          tenant_id nmap_svc.name
          (match nmap_svc.product, nmap_svc.version with
            | some p, some v => some (p ++ " " ++ v)
            | some p, none => some p
            | none, some v => some v
            | none, none => none)
          np.port_id (parse_protocol np.protocol) ServiceState.running
          nmap_svc.extra_info now now
    let edges := nmap_ports.flatMap fun np =>
      Edge.mk
        (u5 sentinel_ns (tenant_id ++ ":edge:has_port:" ++ ip ++ ":" ++ toString np.port_id))
        tenant_id host_id
        (u5 sentinel_ns
          (tenant_id ++ ":port:" ++ ip ++ ":" ++ toString np.port_id ++ ":" ++ np.protocol))
        EdgeType.has_port default_edge_properties now now ::
      (match np.service with
        | some nmap_svc =>
            [Edge.mk
              (u5 sentinel_ns
                (tenant_id ++ ":edge:exposes:" ++ ip ++ ":" ++ toString np.port_id))
              tenant_id host_id
              (u5 sentinel_ns
                (tenant_id ++ ":service:" ++ ip ++ ":" ++ toString np.port_id ++ ":" ++
                  nmap_svc.name))
              EdgeType.exposes
              { default_edge_properties with
                  port := some np.port_id
                  protocol := some (parse_protocol np.protocol) }
              now now]
        | none => [])
    some ⟨host, ports, services, edges⟩

/-- Convert raw scan output into typed entities
(`parse_scan_results`): up hosts only, each converted when it carries an
IPv4 address. -/
def parse_scan_results (u5 : List ℕ → String → String) (nmap_run : NmapRun)
    (tenant_id : String) (scan_time : ℤ) : List DiscoveredHost :=
  (nmap_run.hosts.filter fun h => h.is_up).filterMap
    fun h => convert_nmap_host u5 h tenant_id scan_time

/-- The host ids produced by `parse_scan_results` are exactly the
namespaced hashes of `(tenant, ip)` over the up hosts, independent of the
scan time. -/
theorem parse_ids_formula (u5 : List ℕ → String → String) (tenant_id : String) (t : ℤ)
    (hosts : List NmapHost) :
    (((hosts.filter fun h => h.is_up).filterMap
        fun h => convert_nmap_host u5 h tenant_id t).map fun dh => dh.host.id)
      = (((hosts.filter fun h => h.is_up).filterMap NmapHost.ipv4).map
          fun ip => u5 sentinel_ns (tenant_id ++ ":host:" ++ ip)) := by
  induction hosts with
  | nil => rfl
  | cons h hosts ih =>
      by_cases hup : h.is_up
      · rw [List.filter_cons, if_pos (by simp [hup])]
        cases hip : h.ipv4 with
        | none =>
            have hc : convert_nmap_host u5 h tenant_id t = none := by
              rw [convert_nmap_host, hip]
            rw [@List.filterMap_cons_none _ _ (fun h => convert_nmap_host u5 h tenant_id t)
                h (List.filter (fun h => h.is_up) hosts) hc,
              @List.filterMap_cons_none _ _ NmapHost.ipv4
                h (List.filter (fun h => h.is_up) hosts) hip]
            exact ih
        | some ip =>
            have hc : ∃ dh, convert_nmap_host u5 h tenant_id t = some dh ∧
                dh.host.id = u5 sentinel_ns (tenant_id ++ ":host:" ++ ip) := by
              rw [convert_nmap_host, hip]
              exact ⟨_, rfl, rfl⟩
            obtain ⟨dh, hdh, hid⟩ := hc
            rw [@List.filterMap_cons_some _ _ (fun h => convert_nmap_host u5 h tenant_id t)
                h (List.filter (fun h => h.is_up) hosts) dh hdh,
              @List.filterMap_cons_some _ _ NmapHost.ipv4
                h (List.filter (fun h => h.is_up) hosts) ip hip,
              List.map_cons, List.map_cons, ih, hid]
      · rw [List.filter_cons, if_neg (by simp [hup])]
        exact ih

/-- C9.  Every discovered host id is the namespaced hash of the tenant
and the host's IP under the fixed sentinel namespace, so two parses of
the same scan document for the same tenant — even at different scan
times — produce identical host ids. -/
theorem c9_host_ids_deterministic (u5 : List ℕ → String → String) (run : NmapRun)
    (tenant_id : String) (t₁ t₂ : ℤ) :
    ((parse_scan_results u5 run tenant_id t₁).map fun dh => dh.host.id)
      = ((parse_scan_results u5 run tenant_id t₂).map fun dh => dh.host.id)
    ∧ ((parse_scan_results u5 run tenant_id t₁).map fun dh => dh.host.id)
      = (((run.hosts.filter fun h => h.is_up).filterMap NmapHost.ipv4).map
          fun ip => u5 sentinel_ns (tenant_id ++ ":host:" ++ ip)) := by
  constructor
  · rw [parse_scan_results, parse_scan_results, parse_ids_formula, parse_ids_formula]
  · rw [parse_scan_results, parse_ids_formula]

/-! ### Shortest weighted path, Dijkstra (`sentinel-pathfind/src/algorithms.rs`, C4)

The Rust `BinaryHeap` of `DijkstraState { cost, node }` entries pops an
entry of minimal cost; ties are broken arbitrarily there, so the model
pops the earliest minimal entry.  `f64::INFINITY` sentinels in `dist`
are modelled as `none`. -/

/-- Pop an entry of minimal cost from the heap, modelling
`BinaryHeap::pop` under the reversed ordering of `DijkstraState`. -/
def pop_min : List (ℚ × ℕ) → Option ((ℚ × ℕ) × List (ℚ × ℕ))
  | [] => none
  | e :: rest =>
    match pop_min rest with
    | none => some (e, [])
    | some (m, r) => if m.1 < e.1 then some (m, e :: r) else some (e, rest)

/-- Strict comparison with `none` as positive infinity. -/
def opt_lt (a b : Option ℚ) : Bool :=
  match a, b with
  | none, _ => false
  | some _, none => true
  | some x, some y => decide (x < y)

/-- State of the Dijkstra main loop: tentative distances (`none` is the
`f64::INFINITY` sentinel), reconstruction pointers, the visited set, and
the heap. -/
structure DijkstraLoopState where
  dist : List (Option ℚ)
  prev : List (Option (ℕ × ℕ))
  visited : List Bool
  heap : List (ℚ × ℕ)

/-- Relax one outgoing edge of node `u` sitting at heap position `pos`:
when the new distance strictly improves the target's tentative distance,
update distance and parent pointer and push a heap entry. -/
def relax_edge (u pos : ℕ) (e : GraphEdge) (st : DijkstraLoopState) : DijkstraLoopState :=
  match st.dist.getD u none with
  | none => st
  | some du =>
    let new_dist := du + edge_weight e
    if opt_lt (some new_dist) (st.dist.getD e.target_index none) then
      { st with
          dist := st.dist.set e.target_index (some new_dist)
          prev := st.prev.set e.target_index (some (u, pos))
          heap := st.heap ++ [(new_dist, e.target_index)] }
    else st

/-- Relax every outgoing edge of `u` in adjacency order. -/
def relax_all (graph : InMemoryGraph) (u : ℕ) (st : DijkstraLoopState) : DijkstraLoopState :=
  (graph.adjacency.getD u []).enum.foldl (fun s pe => relax_edge u pe.1 pe.2 s) st

/-- The Dijkstra main loop: pop the minimum entry; break on the target;
skip visited nodes; mark the node visited, skip stale entries, and relax
its edges.  The fuel only guards termination and is instantiated with a
proven-sufficient value. -/
def dijkstra_loop (graph : InMemoryGraph) (target : ℕ) :
    ℕ → DijkstraLoopState → DijkstraLoopState
  | 0, st => st
  | fuel + 1, st =>
    match pop_min st.heap with
    | none => st
    | some ((cost, node), rest) =>
      if node = target then { st with heap := rest }
      else if st.visited.getD node false then
        dijkstra_loop graph target fuel { st with heap := rest }
      else
        let visited' := st.visited.set node true
        if opt_lt (st.dist.getD node none) (some cost) then
          dijkstra_loop graph target fuel { st with heap := rest, visited := visited' }
        else
          dijkstra_loop graph target fuel
            (relax_all graph node { st with heap := rest, visited := visited' })

/-- Total number of edges of the graph. -/
def total_edges (graph : InMemoryGraph) : ℕ :=
  (graph.adjacency.map List.length).sum

/-- Termination measure of the Dijkstra loop: every iteration pops one
entry, pushes at most the popped node's out-degree, and the relaxing
iterations each newly settle a node. -/
def dijkstra_measure (graph : InMemoryGraph) (st : DijkstraLoopState) : ℕ :=
  st.visited.count false * (total_edges graph + 1) + st.heap.length

/-- Initial loop state: distance 0 at the source, everything else at
infinity, and one heap entry for the source. -/
def dijkstra_init (graph : InMemoryGraph) (source : ℕ) : DijkstraLoopState :=
  ⟨(List.replicate graph.nodes.length none).set source (some 0),
    List.replicate graph.nodes.length none,
    List.replicate graph.nodes.length false,
    [(0, source)]⟩

/-- Walk the parent pointers back from the target
(the reconstruction loop of `shortest_weighted_path`); the fuel bounds
the chain length by the node count. -/
def reconstruct_path (prev : List (Option (ℕ × ℕ))) :
    ℕ → ℕ → List ℕ → List (ℕ × ℕ) → List ℕ × List (ℕ × ℕ)
  | 0, _, node_indices, edges => (node_indices, edges)
  | fuel + 1, current, node_indices, edges =>
    match prev.getD current none with
    | none => (node_indices, edges)
    | some (parent, edge_pos) =>
        reconstruct_path prev fuel parent (node_indices ++ [current])
          (edges ++ [(parent, edge_pos)])

/-- Shortest weighted path using Dijkstra's algorithm
(`shortest_weighted_path`): edge weight `1 − clamp(exploitability)`,
`none` when the target is unreachable. -/
def shortest_weighted_path (graph : InMemoryGraph) (source target : ℕ) : Option RawPath :=
  let init := dijkstra_init graph source
  let final := dijkstra_loop graph target (dijkstra_measure graph init + 1) init
  match final.dist.getD target none with
  | none => none
  | some d =>
      let rec_result := reconstruct_path final.prev (graph.nodes.length + 1) target [] []
      some ⟨(rec_result.1 ++ [source]).reverse, rec_result.2.reverse, d⟩

/-- Well-formed in-memory graph: one adjacency row per node and all edge
targets in range.  `InMemoryGraph::from_subgraph` guarantees both; the
Rust code would panic otherwise. -/
def wf_graph (graph : InMemoryGraph) : Prop :=
  graph.adjacency.length = graph.nodes.length ∧
    ∀ l ∈ graph.adjacency, ∀ e ∈ l, e.target_index < graph.nodes.length

/-- A walk in the graph: steps are `(node, edge position)` pairs chained
through the adjacency list. -/
inductive IsWalk (graph : InMemoryGraph) : ℕ → ℕ → List (ℕ × ℕ) → Prop where
  | nil (v : ℕ) : IsWalk graph v v []
  | cons {u w pos : ℕ} {e : GraphEdge} {rest : List (ℕ × ℕ)}
      (he : (graph.adjacency.getD u [])[pos]? = some e)
      (hrest : IsWalk graph e.target_index w rest) :
      IsWalk graph u w ((u, pos) :: rest)

/-- Total weight of a walk under `1 − clamp(exploitability)`. -/
def walk_weight (graph : InMemoryGraph) (steps : List (ℕ × ℕ)) : ℚ :=
  (steps.map fun pr => edge_weight (edge_at graph pr)).sum

/-- Reachability along walks. -/
def reachable (graph : InMemoryGraph) (s t : ℕ) : Prop :=
  ∃ steps, IsWalk graph s t steps

/-- Edge weights lie in `[0, 1]`. -/
theorem edge_weight_nonneg (e : GraphEdge) : 0 ≤ edge_weight e := by
  rw [edge_weight, clamp01]
  have : min 1 e.exploitability ≤ 1 := min_le_left _ _
  have : max 0 (min 1 e.exploitability) ≤ 1 := by
    rw [max_le_iff]
    exact ⟨by norm_num, this⟩
  linarith

/-- Walk weights are nonnegative. -/
theorem walk_weight_nonneg (graph : InMemoryGraph) (steps : List (ℕ × ℕ)) :
    0 ≤ walk_weight graph steps := by
  apply List.sum_nonneg
  intro x hx
  obtain ⟨pr, _, rfl⟩ := List.mem_map.mp hx
  exact edge_weight_nonneg _

/-- Weight of a walk extended by one edge. -/
theorem walk_weight_append_edge (graph : InMemoryGraph) (steps : List (ℕ × ℕ))
    (u pos : ℕ) :
    walk_weight graph (steps ++ [(u, pos)])
      = walk_weight graph steps + edge_weight (edge_at graph (u, pos)) := by
  simp [walk_weight]

/-- Weight of a cons walk. -/
theorem walk_weight_cons (graph : InMemoryGraph) (u pos : ℕ) (rest : List (ℕ × ℕ)) :
    walk_weight graph ((u, pos) :: rest)
      = edge_weight (edge_at graph (u, pos)) + walk_weight graph rest := by
  simp [walk_weight]

/-- A valid edge lookup determines `edge_at`. -/
theorem edge_at_of_getElem? (graph : InMemoryGraph) {u pos : ℕ} {e : GraphEdge}
    (he : (graph.adjacency.getD u [])[pos]? = some e) :
    edge_at graph (u, pos) = e := by
  rw [edge_at]
  rw [List.getD_eq_getElem?_getD (graph.adjacency.getD u [])]
  rw [he]
  rfl

/-- Appending a valid edge to a walk. -/
theorem IsWalk.append_edge (graph : InMemoryGraph) {s u : ℕ} {steps : List (ℕ × ℕ)}
    (hw : IsWalk graph s u steps) {pos : ℕ} {e : GraphEdge}
    (he : (graph.adjacency.getD u [])[pos]? = some e) :
    IsWalk graph s e.target_index (steps ++ [(u, pos)]) := by
  induction hw with
  | nil v => exact IsWalk.cons he (IsWalk.nil _)
  | cons he' _ ih => exact IsWalk.cons he' (ih he)

/-- An empty heap is exactly what makes `pop_min` return nothing. -/
theorem pop_min_eq_none_iff (l : List (ℚ × ℕ)) : pop_min l = none ↔ l = [] := by
  cases l with
  | nil => simp [pop_min]
  | cons e rest =>
      rw [pop_min]
      constructor
      · intro h
        cases hr : pop_min rest with
        | none => rw [hr] at h; cases h
        | some p => rw [hr] at h; obtain ⟨m, r⟩ := p; by_cases hlt : m.1 < e.1 <;>
            simp [hlt] at h
      · intro h; cases h

/-- The popped entry and the remaining heap form a permutation of the
original heap. -/
theorem pop_min_perm (l : List (ℚ × ℕ)) (m : ℚ × ℕ) (r : List (ℚ × ℕ))
    (h : pop_min l = some (m, r)) : l.Perm (m :: r) := by
  induction l generalizing m r with
  | nil => cases h
  | cons e rest ih =>
      rw [pop_min] at h
      cases hr : pop_min rest with
      | none =>
          rw [hr] at h
          rw [(pop_min_eq_none_iff rest).mp hr] at h ⊢
          cases h
          exact List.Perm.refl _
      | some p =>
          obtain ⟨m', r'⟩ := p
          rw [hr] at h
          by_cases hlt : m'.1 < e.1
          · simp only [hlt, ite_true, Option.some.injEq, Prod.mk.injEq] at h
            obtain ⟨h1, h2⟩ := h
            subst h1
            subst h2
            exact ((ih _ _ hr).cons e).trans (List.Perm.swap _ _ _)
          · simp only [hlt, ite_false, Option.some.injEq, Prod.mk.injEq] at h
            obtain ⟨h1, h2⟩ := h
            subst h1
            subst h2
            exact List.Perm.refl _

/-- The popped entry has minimal cost. -/
theorem pop_min_min (l : List (ℚ × ℕ)) (m : ℚ × ℕ) (r : List (ℚ × ℕ))
    (h : pop_min l = some (m, r)) : ∀ x ∈ l, m.1 ≤ x.1 := by
  induction l generalizing m r with
  | nil => cases h
  | cons e rest ih =>
      rw [pop_min] at h
      cases hr : pop_min rest with
      | none =>
          rw [hr] at h
          cases h
          rw [(pop_min_eq_none_iff rest).mp hr]
          intro x hx
          rw [List.mem_singleton] at hx
          subst hx
          exact le_refl _
      | some p =>
          obtain ⟨m', r'⟩ := p
          rw [hr] at h
          by_cases hlt : m'.1 < e.1
          · simp only [hlt, ite_true, Option.some.injEq, Prod.mk.injEq] at h
            obtain ⟨h1, h2⟩ := h
            subst h1
            subst h2
            intro x hx
            rw [List.mem_cons] at hx
            rcases hx with rfl | hx
            · exact le_of_lt hlt
            · exact ih _ _ hr x hx
          · simp only [hlt, ite_false, Option.some.injEq, Prod.mk.injEq] at h
            obtain ⟨h1, h2⟩ := h
            subst h1
            subst h2
            intro x hx
            rw [List.mem_cons] at hx
            rcases hx with rfl | hx
            · exact le_refl _
            · exact le_trans (le_of_not_lt hlt) (ih _ _ hr x hx)

/-- Membership transfer through a pop. -/
theorem pop_min_mem_of_mem (l : List (ℚ × ℕ)) (m : ℚ × ℕ) (r : List (ℚ × ℕ))
    (h : pop_min l = some (m, r)) : ∀ x ∈ l, x = m ∨ x ∈ r := by
  intro x hx
  have := (pop_min_perm l m r h).mem_iff.mp hx
  rw [List.mem_cons] at this
  exact this

/-- Reading a just-written list cell. -/
theorem getD_set_self {α : Type} (l : List α) (i : ℕ) (a d : α) (h : i < l.length) :
    (l.set i a).getD i d = a := by
  rw [List.getD_eq_getElem?_getD, List.getElem?_set_self h]
  rfl

/-- Reading another cell of a written list. -/
theorem getD_set_of_ne {α : Type} (l : List α) {i j : ℕ} (a d : α) (h : i ≠ j) :
    (l.set i a).getD j d = l.getD j d := by
  rw [List.getD_eq_getElem?_getD, List.getElem?_set_ne h, ← List.getD_eq_getElem?_getD]

/-- Reading a replicated list. -/
theorem getD_replicate {α : Type} (n i : ℕ) (a d : α) :
    (List.replicate n a).getD i d = if i < n then a else d := by
  rw [List.getD_eq_getElem?_getD, List.getElem?_replicate]
  by_cases h : i < n <;> simp [h]

/-- Invariant of the Dijkstra loop state, relative to graph and source:
tentative distances are attained by walks and an entry's cost bounds the
current distance of its node; an unvisited node with a finite distance
keeps a fresh heap entry; a visited node's distance is optimal and all
its edges are relaxed. -/
structure DInv (graph : InMemoryGraph) (source : ℕ) (st : DijkstraLoopState) : Prop where
  dist_len : st.dist.length = graph.nodes.length
  visited_len : st.visited.length = graph.nodes.length
  source_dist : st.dist.getD source none = some 0
  nonneg : ∀ v d, st.dist.getD v none = some d → 0 ≤ d
  tentative : ∀ v d, st.dist.getD v none = some d →
    ∃ steps, IsWalk graph source v steps ∧ walk_weight graph steps = d
  entries : ∀ c v, (c, v) ∈ st.heap →
    v < graph.nodes.length ∧ ∃ d, st.dist.getD v none = some d ∧ d ≤ c
  fresh : ∀ v d, st.visited.getD v false = false → st.dist.getD v none = some d →
    (d, v) ∈ st.heap
  settled : ∀ v, st.visited.getD v false = true →
    ∃ d, st.dist.getD v none = some d ∧
      ∀ steps, IsWalk graph source v steps → d ≤ walk_weight graph steps
  frontier : ∀ u, st.visited.getD u false = true →
    ∀ (pos : ℕ) (e : GraphEdge), (graph.adjacency.getD u [])[pos]? = some e →
      ∃ du dt, st.dist.getD u none = some du ∧
        st.dist.getD e.target_index none = some dt ∧ dt ≤ du + edge_weight e

/-- The initial state satisfies the loop invariant. -/
theorem dinv_init (graph : InMemoryGraph) (source : ℕ)
    (hs : source < graph.nodes.length) :
    DInv graph source (dijkstra_init graph source) := by
  have hd : ∀ v, (dijkstra_init graph source).dist.getD v none
      = if v = source then some 0 else none := by
    intro v
    by_cases hv : v = source
    · subst hv
      rw [if_pos rfl]
      exact getD_set_self _ _ _ _ (by simpa using hs)
    · rw [if_neg hv, dijkstra_init]
      rw [getD_set_of_ne _ _ _ (fun h => hv h.symm)]
      rw [getD_replicate]
      simp
  have hv : ∀ v, (dijkstra_init graph source).visited.getD v false = false := by
    intro v
    rw [dijkstra_init, getD_replicate]
    simp
  refine ⟨by simp [dijkstra_init], by simp [dijkstra_init], ?_, ?_, ?_, ?_, ?_, ?_, ?_⟩
  · rw [hd, if_pos rfl]
  · intro v d h
    rw [hd] at h
    by_cases hvs : v = source
    · rw [if_pos hvs] at h; cases h; exact le_refl 0
    · rw [if_neg hvs] at h; cases h
  · intro v d h
    rw [hd] at h
    by_cases hvs : v = source
    · subst hvs
      rw [if_pos rfl] at h
      cases h
      exact ⟨[], IsWalk.nil _, rfl⟩
    · rw [if_neg hvs] at h; cases h
  · intro c v h
    rw [dijkstra_init, List.mem_singleton] at h
    cases h
    exact ⟨hs, 0, by rw [hd, if_pos rfl], le_refl 0⟩
  · intro v d _ h
    rw [hd] at h
    by_cases hvs : v = source
    · subst hvs
      rw [if_pos rfl] at h
      cases h
      rw [dijkstra_init]
      exact List.mem_singleton.mpr rfl
    · rw [if_neg hvs] at h; cases h
  · intro v h
    rw [hv] at h
    cases h
  · intro u h
    rw [hv] at h
    cases h

/-- Following a walk from a settled node to an unsettled one, some heap
entry costs no more than the settled distance plus the walk weight. -/
theorem frontier_path (graph : InMemoryGraph) (source : ℕ) (st : DijkstraLoopState)
    (inv : DInv graph source st) {u v : ℕ} {steps : List (ℕ × ℕ)}
    (hw : IsWalk graph u v steps) (hv : st.visited.getD v false = false) :
    ∀ du, st.visited.getD u false = true → st.dist.getD u none = some du →
      ∃ cw, cw ∈ st.heap ∧ cw.1 ≤ du + walk_weight graph steps := by
  induction hw with
  | nil w =>
      intro du hu hdu
      rw [hu] at hv
      cases hv
  | cons he hrest ih =>
      intro du hu hdu
      rename_i u' w' pos' e' rest'
      obtain ⟨du', dt, hdu', hdt, hle⟩ := inv.frontier u' hu pos' e' he
      rw [hdu] at hdu'
      cases hdu'
      rw [walk_weight_cons, edge_at_of_getElem? graph he]
      by_cases hmid : st.visited.getD e'.target_index false = true
      · obtain ⟨cw, hcw, hcwle⟩ := ih hv dt hmid hdt
        refine ⟨cw, hcw, ?_⟩
        have hnn := walk_weight_nonneg graph rest'
        calc cw.1 ≤ dt + walk_weight graph rest' := hcwle
          _ ≤ du + edge_weight e' + walk_weight graph rest' := by linarith
          _ = du + (edge_weight e' + walk_weight graph rest') := by ring
      · have hfresh := inv.fresh e'.target_index dt
          (by simpa using Bool.eq_false_iff.mpr (fun hc => hmid hc)) hdt
        refine ⟨(dt, e'.target_index), hfresh, ?_⟩
        have hnn := walk_weight_nonneg graph rest'
        show dt ≤ du + (edge_weight e' + walk_weight graph rest')
        linarith

/-- Any walk from the source to an unsettled node is covered by some heap
entry of no larger cost. -/
theorem heap_cover (graph : InMemoryGraph) (source : ℕ) (st : DijkstraLoopState)
    (inv : DInv graph source st) {v : ℕ} {steps : List (ℕ × ℕ)}
    (hw : IsWalk graph source v steps) (hv : st.visited.getD v false = false) :
    ∃ cw, cw ∈ st.heap ∧ cw.1 ≤ walk_weight graph steps := by
  by_cases hs : st.visited.getD source false = true
  · obtain ⟨ds, hds, hopt⟩ := inv.settled source hs
    have hds0 : ds ≤ 0 := by
      have := hopt [] (IsWalk.nil source)
      simpa [walk_weight] using this
    obtain ⟨cw, hcw, hcwle⟩ := frontier_path graph source st inv hw hv ds hs hds
    exact ⟨cw, hcw, by linarith⟩
  · have hfresh := inv.fresh source 0
      (by simpa using Bool.eq_false_iff.mpr (fun hc => hs hc)) inv.source_dist
    exact ⟨(0, source), hfresh, walk_weight_nonneg graph steps⟩

/-- Order with `none` as positive infinity, restricted bound. -/
def opt_le_q (a : Option ℚ) (q : ℚ) : Prop :=
  ∃ x, a = some x ∧ x ≤ q

/-- Order with `none` as positive infinity: whenever the bound is
finite, the value is finite and no larger. -/
def opt_le (a b : Option ℚ) : Prop :=
  ∀ y, b = some y → ∃ x, a = some x ∧ x ≤ y

/-- Reflexivity of `opt_le`. -/
theorem opt_le_refl (a : Option ℚ) : opt_le a a :=
  fun y hy => ⟨y, hy, le_refl y⟩

/-- Transitivity of `opt_le`. -/
theorem opt_le_trans {a b c : Option ℚ} (h₁ : opt_le a b) (h₂ : opt_le b c) :
    opt_le a c := by
  intro z hz
  obtain ⟨y, hy, hyz⟩ := h₂ z hz
  obtain ⟨x, hx, hxy⟩ := h₁ y hy
  exact ⟨x, hx, le_trans hxy hyz⟩

/-- Composing `opt_le` with a rational bound. -/
theorem opt_le_q_of_opt_le {a b : Option ℚ} {q : ℚ} (h₁ : opt_le a b)
    (h₂ : opt_le_q b q) : opt_le_q a q := by
  obtain ⟨y, hy, hyq⟩ := h₂
  obtain ⟨x, hx, hxy⟩ := h₁ y hy
  exact ⟨x, hx, le_trans hxy hyq⟩

/-- Case analysis for one relaxation: either the state is unchanged, or
the strict-improvement update fires. -/
theorem relax_edge_cases (u pos : ℕ) (e : GraphEdge) (st : DijkstraLoopState) :
    relax_edge u pos e st = st ∨
    ∃ du, st.dist.getD u none = some du ∧
      opt_lt (some (du + edge_weight e)) (st.dist.getD e.target_index none) = true ∧
      relax_edge u pos e st =
        { st with
            dist := st.dist.set e.target_index (some (du + edge_weight e))
            prev := st.prev.set e.target_index (some (u, pos))
            heap := st.heap ++ [(du + edge_weight e, e.target_index)] } := by
  cases hdu : st.dist.getD u none with
  | none => left; rw [relax_edge, hdu]
  | some du =>
      by_cases hc : opt_lt (some (du + edge_weight e))
          (st.dist.getD e.target_index none) = true
      · right
        refine ⟨du, rfl, hc, ?_⟩
        rw [relax_edge, hdu]
        simp only [hc, if_true]
      · left
        rw [relax_edge, hdu]
        simp only [Bool.not_eq_true] at hc
        simp only [hc]
        rfl

/-- Unpacking a false strict comparison: the right side is finite and no
larger. -/
theorem of_opt_lt_eq_false {q : ℚ} {b : Option ℚ}
    (h : opt_lt (some q) b = false) : ∃ y, b = some y ∧ y ≤ q := by
  cases b with
  | none => cases h
  | some y =>
      rw [opt_lt] at h
      simp only [decide_eq_false_iff_not, not_lt] at h
      exact ⟨y, rfl, h⟩

/-- Unpacking a true strict comparison against a finite bound. -/
theorem of_opt_lt_some_eq_true {q y : ℚ}
    (h : opt_lt (some q) (some y) = true) : q < y := by
  rw [opt_lt] at h
  exact of_decide_eq_true h

/-- One relaxation never increases any tentative distance. -/
theorem relax_edge_dist_mono (u pos : ℕ) (e : GraphEdge) (st : DijkstraLoopState)
    (v : ℕ) :
    opt_le ((relax_edge u pos e st).dist.getD v none) (st.dist.getD v none) := by
  rcases relax_edge_cases u pos e st with h | ⟨du, hdu, hc, h⟩
  · rw [h]; exact opt_le_refl _
  · intro y hy
    by_cases hv : v = e.target_index
    · subst hv
      rw [hy] at hc
      have hlt := of_opt_lt_some_eq_true hc
      have hvlen : e.target_index < st.dist.length := by
        by_contra hge
        rw [List.getD_eq_getElem?_getD, List.getElem?_eq_none (le_of_not_lt hge)] at hy
        cases hy
      rw [h]
      exact ⟨du + edge_weight e, getD_set_self _ _ _ _ hvlen, le_of_lt hlt⟩
    · rw [h]
      refine ⟨y, ?_, le_refl y⟩
      rw [getD_set_of_ne _ _ _ (fun hh => hv hh.symm)]
      exact hy

/-- The invariant carried through one node's relaxation fold: the loop
invariant with the frontier clause restricted to other settled nodes,
plus the fixed facts about the node being relaxed. -/
structure RelaxInv (graph : InMemoryGraph) (source u : ℕ) (du : ℚ)
    (st : DijkstraLoopState) : Prop where
  dist_len : st.dist.length = graph.nodes.length
  visited_len : st.visited.length = graph.nodes.length
  source_dist : st.dist.getD source none = some 0
  nonneg : ∀ v d, st.dist.getD v none = some d → 0 ≤ d
  tentative : ∀ v d, st.dist.getD v none = some d →
    ∃ steps, IsWalk graph source v steps ∧ walk_weight graph steps = d
  entries : ∀ c v, (c, v) ∈ st.heap →
    v < graph.nodes.length ∧ ∃ d, st.dist.getD v none = some d ∧ d ≤ c
  fresh : ∀ v d, st.visited.getD v false = false → st.dist.getD v none = some d →
    (d, v) ∈ st.heap
  settled : ∀ v, st.visited.getD v false = true →
    ∃ d, st.dist.getD v none = some d ∧
      ∀ steps, IsWalk graph source v steps → d ≤ walk_weight graph steps
  frontier_ne : ∀ u', st.visited.getD u' false = true → u' ≠ u →
    ∀ (pos : ℕ) (e : GraphEdge), (graph.adjacency.getD u' [])[pos]? = some e →
      ∃ du' dt, st.dist.getD u' none = some du' ∧
        st.dist.getD e.target_index none = some dt ∧ dt ≤ du' + edge_weight e
  u_visited : st.visited.getD u false = true
  u_dist : st.dist.getD u none = some du

/-- One valid relaxation step preserves the relaxation invariant and
bounds the target's new distance. -/
theorem relax_edge_spec (graph : InMemoryGraph) (source u : ℕ) (du : ℚ)
    (hwf : wf_graph graph) (hu : u < graph.nodes.length) (pos : ℕ) (e : GraphEdge)
    (he : (graph.adjacency.getD u [])[pos]? = some e) (st : DijkstraLoopState)
    (inv : RelaxInv graph source u du st) :
    RelaxInv graph source u du (relax_edge u pos e st) ∧
      opt_le_q ((relax_edge u pos e st).dist.getD e.target_index none)
        (du + edge_weight e) := by
  have htlt : e.target_index < graph.nodes.length := by
    have hul : u < graph.adjacency.length := by rw [hwf.1]; exact hu
    have hmem : graph.adjacency.getD u [] ∈ graph.adjacency := by
      rw [List.getD_eq_getElem _ _ hul]
      exact graph.adjacency.getElem_mem hul
    exact hwf.2 _ hmem e (List.mem_iff_getElem?.mpr ⟨pos, he⟩)
  rcases relax_edge_cases u pos e st with hcase | ⟨du', hdu', hc, hcase⟩
  · -- no update: the target already satisfies the bound
    rw [hcase]
    refine ⟨inv, ?_⟩
    cases hdu0 : st.dist.getD u none with
    | none => rw [inv.u_dist] at hdu0; cases hdu0
    | some du0 =>
        rw [inv.u_dist] at hdu0
        cases hdu0
        -- the update did not fire, so the comparison was false
        have hfalse : opt_lt (some (du + edge_weight e))
            (st.dist.getD e.target_index none) = false := by
          by_contra hb
          simp only [Bool.not_eq_false] at hb
          have : relax_edge u pos e st ≠ st := by
            rw [relax_edge, inv.u_dist]
            simp only [hb, if_true]
            intro hcontra
            have := congrArg DijkstraLoopState.heap hcontra
            simp at this
          rw [hcase] at this
          exact this rfl
        obtain ⟨y, hy, hyq⟩ := of_opt_lt_eq_false hfalse
        exact ⟨y, hy, hyq⟩
  · -- update case
    rw [inv.u_dist] at hdu'
    cases hdu'
    have htu : e.target_index ≠ u := by
      intro hh
      rw [hh, inv.u_dist] at hc
      have := of_opt_lt_some_eq_true hc
      have hw := edge_weight_nonneg e
      linarith
    have htunvisited : st.visited.getD e.target_index false = false := by
      by_contra hb
      simp only [Bool.not_eq_false] at hb
      obtain ⟨dt, hdt, hopt⟩ := inv.settled e.target_index hb
      obtain ⟨steps, hsteps, hwt⟩ := inv.tentative u du inv.u_dist
      have hwalk := IsWalk.append_edge graph hsteps he
      have hbound := hopt _ hwalk
      rw [walk_weight_append_edge, edge_at_of_getElem? graph he, hwt] at hbound
      rw [hdt] at hc
      have := of_opt_lt_some_eq_true hc
      linarith
    have htsource : e.target_index ≠ source := by
      intro hh
      rw [hh, inv.source_dist] at hc
      have := of_opt_lt_some_eq_true hc
      have hw := edge_weight_nonneg e
      have hdu0 := inv.nonneg u du inv.u_dist
      linarith
    have hdlen : e.target_index < st.dist.length := by rw [inv.dist_len]; exact htlt
    have hset_self : (relax_edge u pos e st).dist.getD e.target_index none
        = some (du + edge_weight e) := by
      rw [hcase]
      exact getD_set_self _ _ _ _ hdlen
    have hset_other : ∀ v, v ≠ e.target_index →
        (relax_edge u pos e st).dist.getD v none = st.dist.getD v none := by
      intro v hv
      rw [hcase]
      exact getD_set_of_ne _ _ _ (fun hh => hv hh.symm)
    have hvisited_eq : (relax_edge u pos e st).visited = st.visited := by rw [hcase]
    have hheap_eq : (relax_edge u pos e st).heap
        = st.heap ++ [(du + edge_weight e, e.target_index)] := by rw [hcase]
    have hnewnn : 0 ≤ du + edge_weight e := by
      have := inv.nonneg u du inv.u_dist
      have := edge_weight_nonneg e
      linarith
    refine ⟨⟨?_, ?_, ?_, ?_, ?_, ?_, ?_, ?_, ?_, ?_, ?_⟩, ?_⟩
    · rw [hcase]; simpa using inv.dist_len
    · rw [hvisited_eq]; exact inv.visited_len
    · rw [hset_other source (fun hh => htsource hh.symm)]; exact inv.source_dist
    · intro v d hd
      by_cases hv : v = e.target_index
      · subst hv
        rw [hset_self] at hd
        cases hd
        exact hnewnn
      · rw [hset_other v hv] at hd
        exact inv.nonneg v d hd
    · intro v d hd
      by_cases hv : v = e.target_index
      · subst hv
        rw [hset_self] at hd
        cases hd
        obtain ⟨steps, hsteps, hwt⟩ := inv.tentative u du inv.u_dist
        refine ⟨steps ++ [(u, pos)], IsWalk.append_edge graph hsteps he, ?_⟩
        rw [walk_weight_append_edge, edge_at_of_getElem? graph he, hwt]
      · rw [hset_other v hv] at hd
        exact inv.tentative v d hd
    · intro c v hcv
      rw [hheap_eq, List.mem_append, List.mem_singleton] at hcv
      rcases hcv with hcv | hcv
      · obtain ⟨hvlt, d, hd, hdc⟩ := inv.entries c v hcv
        refine ⟨hvlt, ?_⟩
        by_cases hv : v = e.target_index
        · subst hv
          rw [hset_self]
          rw [hd] at hc
          have := of_opt_lt_some_eq_true hc
          exact ⟨du + edge_weight e, rfl, by linarith⟩
        · rw [hset_other v hv]
          exact ⟨d, hd, hdc⟩
      · cases hcv
        exact ⟨htlt, du + edge_weight e, hset_self, le_refl _⟩
    · intro v d hvf hd
      rw [hvisited_eq] at hvf
      by_cases hv : v = e.target_index
      · subst hv
        rw [hset_self] at hd
        cases hd
        rw [hheap_eq]
        exact List.mem_append_right _ (List.mem_singleton.mpr rfl)
      · rw [hset_other v hv] at hd
        rw [hheap_eq]
        exact List.mem_append_left _ (inv.fresh v d hvf hd)
    · intro v hvt
      rw [hvisited_eq] at hvt
      obtain ⟨d, hd, hopt⟩ := inv.settled v hvt
      have hvne : v ≠ e.target_index := by
        intro hh
        rw [hh] at hvt
        rw [hvt] at htunvisited
        cases htunvisited
      rw [hset_other v hvne]
      exact ⟨d, hd, hopt⟩
    · intro u' hu't hu'ne pos' e' he'
      rw [hvisited_eq] at hu't
      obtain ⟨du', dt, hdu'', hdt, hle⟩ := inv.frontier_ne u' hu't hu'ne pos' e' he'
      have hu'ne_t : u' ≠ e.target_index := by
        intro hh
        rw [hh] at hu't
        rw [hu't] at htunvisited
        cases htunvisited
      by_cases hv : e'.target_index = e.target_index
      · refine ⟨du', du + edge_weight e, ?_, ?_, ?_⟩
        · rw [hset_other u' hu'ne_t]; exact hdu''
        · rw [hv]; exact hset_self
        · rw [hv] at hdt
          rw [hdt] at hc
          have := of_opt_lt_some_eq_true hc
          linarith
      · refine ⟨du', dt, ?_, ?_, hle⟩
        · rw [hset_other u' hu'ne_t]; exact hdu''
        · rw [hset_other _ hv]; exact hdt
    · rw [hvisited_eq]; exact inv.u_visited
    · rw [hset_other u (Ne.symm htu)]
      exact inv.u_dist
    · exact ⟨du + edge_weight e, hset_self, le_refl _⟩

/-- A relaxation fold never increases any tentative distance. -/
theorem relax_fold_dist_mono (u : ℕ) (L : List (ℕ × GraphEdge)) (st : DijkstraLoopState)
    (v : ℕ) :
    opt_le ((L.foldl (fun s pe => relax_edge u pe.1 pe.2 s) st).dist.getD v none)
      (st.dist.getD v none) := by
  induction L generalizing st with
  | nil => exact opt_le_refl _
  | cons pe L ih =>
      rw [List.foldl_cons]
      exact opt_le_trans (ih _) (relax_edge_dist_mono u pe.1 pe.2 st v)

/-- One relaxation leaves the visited set untouched. -/
theorem relax_edge_visited_eq (u pos : ℕ) (e : GraphEdge) (st : DijkstraLoopState) :
    (relax_edge u pos e st).visited = st.visited := by
  rcases relax_edge_cases u pos e st with h | ⟨_, _, _, h⟩ <;> rw [h]

/-- A relaxation fold leaves the visited set untouched. -/
theorem relax_fold_visited_eq (u : ℕ) (L : List (ℕ × GraphEdge)) (st : DijkstraLoopState) :
    (L.foldl (fun s pe => relax_edge u pe.1 pe.2 s) st).visited = st.visited := by
  induction L generalizing st with
  | nil => rfl
  | cons pe L ih =>
      rw [List.foldl_cons, ih, relax_edge_visited_eq]

/-- One relaxation pushes at most one heap entry. -/
theorem relax_edge_heap_len (u pos : ℕ) (e : GraphEdge) (st : DijkstraLoopState) :
    (relax_edge u pos e st).heap.length ≤ st.heap.length + 1 := by
  rcases relax_edge_cases u pos e st with h | ⟨_, _, _, h⟩ <;> rw [h] <;> simp

/-- A relaxation fold pushes at most one heap entry per edge. -/
theorem relax_fold_heap_len (u : ℕ) (L : List (ℕ × GraphEdge)) (st : DijkstraLoopState) :
    (L.foldl (fun s pe => relax_edge u pe.1 pe.2 s) st).heap.length
      ≤ st.heap.length + L.length := by
  induction L generalizing st with
  | nil => simp
  | cons pe L ih =>
      rw [List.foldl_cons]
      calc (L.foldl (fun s pe => relax_edge u pe.1 pe.2 s) (relax_edge u pe.1 pe.2 st)).heap.length
          ≤ (relax_edge u pe.1 pe.2 st).heap.length + L.length := ih _
        _ ≤ st.heap.length + 1 + L.length :=
            Nat.add_le_add_right (relax_edge_heap_len u pe.1 pe.2 st) _
        _ = st.heap.length + (L.length + 1) := by omega
        _ = st.heap.length + (pe :: L).length := by simp

/-- A valid relaxation fold preserves the relaxation invariant and bounds
every processed target's distance. -/
theorem relax_fold_spec (graph : InMemoryGraph) (source u : ℕ) (du : ℚ)
    (hwf : wf_graph graph) (hu : u < graph.nodes.length) (L : List (ℕ × GraphEdge))
    (hvalid : ∀ pe ∈ L, (graph.adjacency.getD u [])[pe.1]? = some pe.2)
    (st : DijkstraLoopState) (inv : RelaxInv graph source u du st) :
    RelaxInv graph source u du (L.foldl (fun s pe => relax_edge u pe.1 pe.2 s) st) ∧
      ∀ pe ∈ L, opt_le_q
        ((L.foldl (fun s pe => relax_edge u pe.1 pe.2 s) st).dist.getD pe.2.target_index none)
        (du + edge_weight pe.2) := by
  induction L generalizing st with
  | nil => exact ⟨inv, fun pe h => absurd h (List.not_mem_nil pe)⟩
  | cons pe L ih =>
      have hpe := hvalid pe (List.mem_cons_self _ _)
      obtain ⟨inv', hle⟩ := relax_edge_spec graph source u du hwf hu pe.1 pe.2 hpe st inv
      obtain ⟨invf, hrest⟩ :=
        ih (fun q hq => hvalid q (List.mem_cons_of_mem _ hq)) _ inv'
      rw [List.foldl_cons]
      refine ⟨invf, ?_⟩
      intro q hq
      rcases List.mem_cons.mp hq with rfl | hq
      · exact opt_le_q_of_opt_le (relax_fold_dist_mono u L _ _) hle
      · exact hrest q hq

/-- Out-degrees are bounded by the total edge count. -/
theorem degree_le_total_edges (graph : InMemoryGraph) (u : ℕ) :
    (graph.adjacency.getD u []).length ≤ total_edges graph := by
  by_cases hu : u < graph.adjacency.length
  · rw [List.getD_eq_getElem _ _ hu]
    refine List.single_le_sum (fun x _ => Nat.zero_le x) _ ?_
    exact List.mem_map_of_mem _ (graph.adjacency.getElem_mem hu)
  · rw [List.getD_eq_default _ _ (le_of_not_lt hu)]
    exact Nat.zero_le _

/-- After popping and relaxing an unvisited node, the loop invariant
holds again. -/
theorem step_relax_dinv (graph : InMemoryGraph) (source : ℕ) (hwf : wf_graph graph)
    (st : DijkstraLoopState) (inv : DInv graph source st) (cost : ℚ) (node : ℕ)
    (rest : List (ℚ × ℕ)) (hpop : pop_min st.heap = some ((cost, node), rest))
    (hnv : st.visited.getD node false = false) :
    DInv graph source (relax_all graph node
      { st with heap := rest, visited := st.visited.set node true }) := by
  have hmem : (cost, node) ∈ st.heap :=
    ((pop_min_perm _ _ _ hpop).mem_iff).mpr (List.mem_cons_self _ _)
  obtain ⟨hnode_lt, d, hd, hdc⟩ := inv.entries cost node hmem
  have hnode_len : node < st.visited.length := by rw [inv.visited_len]; exact hnode_lt
  have hopt : ∀ steps, IsWalk graph source node steps →
      d ≤ walk_weight graph steps := by
    intro steps hw
    obtain ⟨cw, hcw, hcwle⟩ := heap_cover graph source st inv hw hnv
    have hmin := pop_min_min _ _ _ hpop cw hcw
    simp only at hmin
    linarith
  have hvnode : ({ st with heap := rest, visited := st.visited.set node true } : DijkstraLoopState).visited.getD node false = true := by
    exact getD_set_self _ _ _ _ hnode_len
  have hvset : ∀ v, v ≠ node →
      ({ st with heap := rest, visited := st.visited.set node true } : DijkstraLoopState).visited.getD v false
        = st.visited.getD v false := by
    intro v hv
    exact getD_set_of_ne _ _ _ (fun hh => hv hh.symm)
  have hmem_rest : ∀ x : ℚ × ℕ, x ∈ st.heap → x.2 ≠ node → x ∈ rest := by
    intro x hx hxne
    rcases pop_min_mem_of_mem _ _ _ hpop x hx with rfl | hxr
    · cases hxne rfl
    · exact hxr
  have invP : RelaxInv graph source node d
      { st with heap := rest, visited := st.visited.set node true } := by
    refine ⟨inv.dist_len, by simpa using inv.visited_len, inv.source_dist, inv.nonneg,
      inv.tentative, ?_, ?_, ?_, ?_, hvnode, hd⟩
    · intro c v hcv
      exact inv.entries c v
        (((pop_min_perm _ _ _ hpop).mem_iff).mpr (List.mem_cons_of_mem _ hcv))
    · intro v dv hvf hdv
      have hvne : v ≠ node := by
        intro hh
        rw [hh, hvnode] at hvf
        cases hvf
      rw [hvset v hvne] at hvf
      exact hmem_rest (dv, v) (inv.fresh v dv hvf hdv) hvne
    · intro v hvt
      by_cases hvne : v = node
      · subst hvne
        exact ⟨d, hd, hopt⟩
      · rw [hvset v hvne] at hvt
        exact inv.settled v hvt
    · intro u' hu't hu'ne pos e he
      rw [hvset u' hu'ne] at hu't
      exact inv.frontier u' hu't pos e he
  have hvalid : ∀ pe ∈ (graph.adjacency.getD node []).enum,
      (graph.adjacency.getD node [])[pe.1]? = some pe.2 :=
    fun pe hpe => List.mem_enum_iff_getElem?.mp hpe
  obtain ⟨invf, hbound⟩ := relax_fold_spec graph source node d hwf hnode_lt _ hvalid _ invP
  rw [relax_all]
  refine ⟨invf.dist_len, invf.visited_len, invf.source_dist, invf.nonneg, invf.tentative,
    invf.entries, invf.fresh, invf.settled, ?_⟩
  intro u' hu't pos e he
  by_cases hu'ne : u' = node
  · subst hu'ne
    obtain ⟨x, hx, hxle⟩ := hbound (pos, e) (List.mem_enum_iff_getElem?.mpr he)
    exact ⟨d, x, invf.u_dist, hx, hxle⟩
  · exact invf.frontier_ne u' hu't hu'ne pos e he

/-- Relaxing all edges of a node leaves the visited set untouched. -/
theorem relax_all_visited_eq (graph : InMemoryGraph) (u : ℕ) (st : DijkstraLoopState) :
    (relax_all graph u st).visited = st.visited := by
  rw [relax_all]
  exact relax_fold_visited_eq u _ st

/-- Relaxing all edges of a node pushes at most its out-degree. -/
theorem relax_all_heap_len (graph : InMemoryGraph) (u : ℕ) (st : DijkstraLoopState) :
    (relax_all graph u st).heap.length
      ≤ st.heap.length + (graph.adjacency.getD u []).length := by
  rw [relax_all]
  have h := relax_fold_heap_len u (graph.adjacency.getD u []).enum st
  simpa [List.enum_length] using h

/-- Setting a false cell to true removes one false occurrence. -/
theorem count_false_set_true (l : List Bool) : ∀ (i : ℕ) (hi : i < l.length),
    l[i] = false → (l.set i true).count false + 1 = l.count false := by
  induction l with
  | nil => intro i hi; cases hi
  | cons a l ih =>
      intro i hi ha
      cases i with
      | zero =>
          simp only [List.getElem_cons_zero] at ha
          subst ha
          simp [List.count_cons]
      | succ n =>
          have hn : n < l.length := by simpa using hi
          have hrec := ih n hn (by simpa using ha)
          simp only [List.set, List.count_cons]
          omega

/-- Popping the entry of an already-visited node preserves the invariant. -/
theorem step_skip_dinv (graph : InMemoryGraph) (source : ℕ) (st : DijkstraLoopState)
    (inv : DInv graph source st) (cost : ℚ) (node : ℕ) (rest : List (ℚ × ℕ))
    (hpop : pop_min st.heap = some ((cost, node), rest))
    (hv : st.visited.getD node false = true) :
    DInv graph source { st with heap := rest } := by
  refine ⟨inv.dist_len, inv.visited_len, inv.source_dist, inv.nonneg, inv.tentative,
    ?_, ?_, inv.settled, inv.frontier⟩
  · intro c v hcv
    exact inv.entries c v
      (((pop_min_perm _ _ _ hpop).mem_iff).mpr (List.mem_cons_of_mem _ hcv))
  · intro v d hvf hd
    rcases pop_min_mem_of_mem _ _ _ hpop _ (inv.fresh v d hvf hd) with heq | hr
    · have hvn : v = node := congrArg Prod.snd heq
      rw [hvn, hv] at hvf
      cases hvf
    · exact hr

/-- What the loop's final state must satisfy for the target: a `none`
distance means the target is unreachable, and a finite distance is
attained by a walk and bounds every walk's weight from below. -/
def dijkstra_good (graph : InMemoryGraph) (source target : ℕ)
    (st : DijkstraLoopState) : Prop :=
  (st.dist.getD target none = none → ¬ reachable graph source target) ∧
    ∀ d, st.dist.getD target none = some d →
      (∃ steps, IsWalk graph source target steps ∧ walk_weight graph steps = d) ∧
        ∀ steps, IsWalk graph source target steps → d ≤ walk_weight graph steps

/-- A state with an empty heap is final and good for any target. -/
theorem final_good_empty (graph : InMemoryGraph) (source target : ℕ)
    (st : DijkstraLoopState) (inv : DInv graph source st) (hheap : st.heap = []) :
    dijkstra_good graph source target st := by
  constructor
  · intro hnone ⟨steps, hw⟩
    by_cases hvt : st.visited.getD target false = true
    · obtain ⟨d, hd, _⟩ := inv.settled target hvt
      rw [hnone] at hd
      cases hd
    · obtain ⟨cw, hcw, _⟩ := heap_cover graph source st inv hw
        (by simpa using Bool.eq_false_iff.mpr (fun hc => hvt hc))
      rw [hheap] at hcw
      cases hcw
  · intro d hd
    refine ⟨inv.tentative target d hd, ?_⟩
    intro steps hw
    by_cases hvt : st.visited.getD target false = true
    · obtain ⟨d₂, hd₂, hopt⟩ := inv.settled target hvt
      rw [hd] at hd₂
      cases hd₂
      exact hopt steps hw
    · exact absurd (inv.fresh target d
        (by simpa using Bool.eq_false_iff.mpr (fun hc => hvt hc)) hd)
        (by rw [hheap]; exact List.not_mem_nil _)

/-- Popping the target makes the state good: its distance is attained and
bounds every walk, because the popped cost is the heap minimum. -/
theorem final_good_pop (graph : InMemoryGraph) (source target : ℕ)
    (st : DijkstraLoopState) (inv : DInv graph source st) (cost : ℚ)
    (rest : List (ℚ × ℕ)) (hpop : pop_min st.heap = some ((cost, target), rest)) :
    dijkstra_good graph source target { st with heap := rest } := by
  have hmem : (cost, target) ∈ st.heap :=
    ((pop_min_perm _ _ _ hpop).mem_iff).mpr (List.mem_cons_self _ _)
  obtain ⟨_, d, hd, hdc⟩ := inv.entries cost target hmem
  constructor
  · intro hnone
    rw [show ({ st with heap := rest } : DijkstraLoopState).dist = st.dist from rfl, hd]
      at hnone
    cases hnone
  · intro d' hd'
    rw [show ({ st with heap := rest } : DijkstraLoopState).dist = st.dist from rfl, hd]
      at hd'
    cases hd'
    refine ⟨inv.tentative target d hd, ?_⟩
    intro steps hw
    by_cases hvt : st.visited.getD target false = true
    · obtain ⟨d₂, hd₂, hopt⟩ := inv.settled target hvt
      rw [hd] at hd₂
      cases hd₂
      exact hopt steps hw
    · obtain ⟨cw, hcw, hcwle⟩ := heap_cover graph source st inv hw
        (by simpa using Bool.eq_false_iff.mpr (fun hc => hvt hc))
      have hmin := pop_min_min _ _ _ hpop cw hcw
      simp only at hmin
      linarith

/-- Main correctness lemma of the Dijkstra loop: from an invariant state
with enough fuel, the loop result is good for the target. -/
theorem dijkstra_loop_good (graph : InMemoryGraph) (source target : ℕ)
    (hwf : wf_graph graph) :
    ∀ (fuel : ℕ) (st : DijkstraLoopState), DInv graph source st →
      dijkstra_measure graph st < fuel →
      dijkstra_good graph source target (dijkstra_loop graph target fuel st) := by
  intro fuel
  induction fuel with
  | zero => intro st _ hlt; cases hlt
  | succ fuel ih =>
      intro st inv hfuel
      cases hpop : pop_min st.heap with
      | none =>
          simp only [dijkstra_loop, hpop]
          exact final_good_empty graph source target st inv
            ((pop_min_eq_none_iff _).mp hpop)
      | some p =>
          obtain ⟨⟨cost, node⟩, rest⟩ := p
          simp only [dijkstra_loop, hpop]
          have hlen : st.heap.length = rest.length + 1 := by
            have := (pop_min_perm _ _ _ hpop).length_eq
            simpa using this
          by_cases htgt : node = target
          · subst htgt
            rw [if_pos rfl]
            exact final_good_pop graph source node st inv cost rest hpop
          · rw [if_neg htgt]
            by_cases hvis : st.visited.getD node false = true
            · rw [if_pos hvis]
              refine ih _ (step_skip_dinv graph source st inv cost node rest hpop hvis) ?_
              have : dijkstra_measure graph ({ st with heap := rest }) + 1
                  = dijkstra_measure graph st := by
                rw [dijkstra_measure, dijkstra_measure]
                rw [show ({ st with heap := rest } : DijkstraLoopState).visited
                  = st.visited from rfl]
                rw [show ({ st with heap := rest } : DijkstraLoopState).heap
                  = rest from rfl, hlen]
                omega
              omega
            · rw [if_neg hvis]
              have hnv : st.visited.getD node false = false := by
                simpa using Bool.eq_false_iff.mpr (fun hc => hvis hc)
              have hmem : (cost, node) ∈ st.heap :=
                ((pop_min_perm _ _ _ hpop).mem_iff).mpr (List.mem_cons_self _ _)
              obtain ⟨hnode_lt, d, hd, hdc⟩ := inv.entries cost node hmem
              have hstale : opt_lt (st.dist.getD node none) (some cost) = false := by
                rw [hd, opt_lt]
                have hfresh := inv.fresh node d hnv hd
                have hmin := pop_min_min _ _ _ hpop (d, node) hfresh
                simp only at hmin
                simp [not_lt.mpr hmin]
              rw [hstale]
              simp only [Bool.false_eq_true, if_false]
              have inv' := step_relax_dinv graph source hwf st inv cost node rest hpop hnv
              refine ih _ inv' ?_
              have hnode_len : node < st.visited.length := by
                rw [inv.visited_len]
                exact hnode_lt
              have hget : st.visited[node] = false := by
                rw [List.getD_eq_getElem _ _ hnode_len] at hnv
                exact hnv
              have hcount := count_false_set_true st.visited node hnode_len hget
              have hvis_eq : (relax_all graph node
                  { st with heap := rest, visited := st.visited.set node true }).visited
                    = st.visited.set node true := by
                rw [relax_all_visited_eq]
              have hheap_le : (relax_all graph node
                  { st with heap := rest, visited := st.visited.set node true }).heap.length
                    ≤ rest.length + total_edges graph := by
                have h₁ := relax_all_heap_len graph node
                  { st with heap := rest, visited := st.visited.set node true }
                have h₂ := degree_le_total_edges graph node
                simp only at h₁
                omega
              simp only [dijkstra_measure] at hfuel ⊢
              rw [hvis_eq]
              have hkey : st.visited.count false * (total_edges graph + 1)
                  = (st.visited.set node true).count false * (total_edges graph + 1)
                    + (total_edges graph + 1) := by
                rw [← hcount]
                ring
              rw [hkey] at hfuel
              omega

/-- C4: for every well-formed graph and in-range source,
`shortest_weighted_path` returns `none` exactly when the target is
unreachable, and when it returns a path its total weight is attained by a
walk from source to target and no walk — in particular no simple path —
from source to target has strictly lower total weight under
`w(e) = 1 − clamp(exploitability(e), 0, 1)`. -/
theorem c4_shortest_path_optimal (graph : InMemoryGraph) (source target : ℕ)
    (hwf : wf_graph graph) (hs : source < graph.nodes.length) :
    (shortest_weighted_path graph source target = none ↔
      ¬ reachable graph source target) ∧
    ∀ p, shortest_weighted_path graph source target = some p →
      (∃ steps, IsWalk graph source target steps ∧
        walk_weight graph steps = p.total_weight) ∧
      ∀ steps, IsWalk graph source target steps →
        ¬ (walk_weight graph steps < p.total_weight) := by
  have init_inv := dinv_init graph source hs
  obtain ⟨hnone, hsome⟩ := dijkstra_loop_good graph source target hwf
    (dijkstra_measure graph (dijkstra_init graph source) + 1)
    (dijkstra_init graph source) init_inv (Nat.lt_succ_self _)
  constructor
  · constructor
    · intro heq
      cases hdt : (dijkstra_loop graph target
          (dijkstra_measure graph (dijkstra_init graph source) + 1)
          (dijkstra_init graph source)).dist.getD target none with
      | none => exact hnone hdt
      | some d =>
          rw [shortest_weighted_path] at heq
          simp only [hdt] at heq
          cases heq
    · intro hunreach
      cases hdt : (dijkstra_loop graph target
          (dijkstra_measure graph (dijkstra_init graph source) + 1)
          (dijkstra_init graph source)).dist.getD target none with
      | none =>
          rw [shortest_weighted_path]
          simp only [hdt]
      | some d =>
          obtain ⟨⟨steps, hw, _⟩, _⟩ := hsome d hdt
          exact absurd ⟨steps, hw⟩ hunreach
  · intro p hp
    cases hdt : (dijkstra_loop graph target
        (dijkstra_measure graph (dijkstra_init graph source) + 1)
        (dijkstra_init graph source)).dist.getD target none with
    | none =>
        rw [shortest_weighted_path] at hp
        simp only [hdt] at hp
        cases hp
    | some d =>
        rw [shortest_weighted_path] at hp
        simp only [hdt, Option.some.injEq] at hp
        have hweight : p.total_weight = d := by
          rw [← hp]
        obtain ⟨hatt, hopt⟩ := hsome d hdt
        rw [hweight]
        exact ⟨hatt, fun steps hw => not_lt.mpr (hopt steps hw)⟩

/-- Concrete two-node graph with one edge `0 → 1` for the C4 witness. -/
def c4_graph : InMemoryGraph :=
  ⟨[default_graph_node, { default_graph_node with index := 1 }],
    [[{ default_graph_edge with exploitability := 1/2, target_index := 1 }], []],
    [("a", 0), ("b", 1)]⟩

/-- Witness instantiating the C4 theorem on `c4_graph` at source 0,
target 1, with the hypotheses discharged concretely. -/
theorem c4_witness :
    wf_graph c4_graph ∧ 0 < c4_graph.nodes.length ∧
    ((shortest_weighted_path c4_graph 0 1 = none ↔ ¬ reachable c4_graph 0 1) ∧
      ∀ p, shortest_weighted_path c4_graph 0 1 = some p →
        (∃ steps, IsWalk c4_graph 0 1 steps ∧
          walk_weight c4_graph steps = p.total_weight) ∧
        ∀ steps, IsWalk c4_graph 0 1 steps →
          ¬ (walk_weight c4_graph steps < p.total_weight)) :=
  ⟨⟨rfl, by decide⟩, by decide,
    c4_shortest_path_optimal c4_graph 0 1 ⟨rfl, by decide⟩ (by decide)⟩

end Sentinel
